import Mathlib

/-!
# html_parser.cpp : tokenizer and DOM builder

A shallow embedding of `src/html_parser.cpp`.

* `std::string` is a `List Char`; `std::vector<T>` is a `List T` whose back is the
  last element (`push_back x` is `· ++ [x]`, `pop_back` is `List.dropLast`,
  `back()` is `List.getLast?`).  The code compares characters only with `<`, `/`
  and `>`, so nothing depends on the alphabet being bytes or code points.
* `size_t pos` is a `Nat`.  The cursor never exceeds `html.length + 1`, so no
  wrap-around of the machine integer can occur for a string that fits in memory.
* A `Node*` held on the open-element stack is the path of child indices that leads
  from the root to the node (`NodePtr`).  Nodes are never removed or moved, so a
  path stays valid for the whole run.
* Reading `stack.back()` on an empty vector is undefined behaviour in C++; the
  embedding makes it explicit as the result `none`.
-/

namespace HtmlParser

/-! ## Data model (lines 6-49) -/

/-- Token kinds, `enum class TokenType`. -/
inductive TokenType where
  | StartTag
  | EndTag
  | Text
deriving DecidableEq, Repr

/-- A token, `struct Token`: kind and payload (tag name or text content). -/
structure Token where
  type : TokenType
  data : List Char
deriving DecidableEq, Repr

/-- A DOM node, `class Node`: `name` is the tag name or the text content. -/
structure Node where
  name : List Char
  children : List Node
  is_text : Bool

/-- The method `Node::add_child`: `children.push_back(std::move(child))`. -/
def Node.add_child (n : Node) (child : Node) : Node :=
  ⟨n.name, n.children ++ [child], n.is_text⟩

/-! ## Tokenizer (lines 52-92) -/

/-- The local variables of `tokenize`. -/
structure ScanState where
  tokens : List Token
  pos : Nat
  buffer : List Char

/-- The inner loop of lines 73-75:
`while (pos < html.length() && html[pos] != '>') tag_name += html[pos++];`
returning the final `pos` and `tag_name`. -/
def scanTagName (html : List Char) (pos : Nat) (tag_name : List Char) : Nat × List Char :=
  if h : pos < html.length then
    if html[pos] ≠ '>' then
      scanTagName html (pos + 1) (tag_name ++ [html[pos]])
    else (pos, tag_name)
  else (pos, tag_name)
termination_by html.length - pos

/-- One iteration of the outer `while` loop, lines 58-83 (entered with
`pos < html.length()`). -/
def tokenizeStep (html : List Char) (st : ScanState) (h : st.pos < html.length) : ScanState :=
  let c := html[st.pos]
  if c = '<' then
    -- flush any buffered text (lines 62-65)
    let tokens1 := if st.buffer ≠ [] then st.tokens ++ [⟨TokenType.Text, st.buffer⟩] else st.tokens
    let buffer1 := if st.buffer ≠ [] then [] else st.buffer
    -- line 68
    let is_end_tag : Bool :=
      if h1 : st.pos + 1 < html.length then decide (html[st.pos + 1] = '/') else false
    -- line 69
    let pos1 := st.pos + (if is_end_tag then 2 else 1)
    -- lines 72-75
    let r := scanTagName html pos1 []
    -- lines 76-78
    ⟨tokens1 ++ [⟨if is_end_tag then TokenType.EndTag else TokenType.StartTag, r.2⟩],
      r.1 + 1, buffer1⟩
  else
    -- lines 81-82
    ⟨st.tokens, st.pos + 1, st.buffer ++ [c]⟩

/-- The outer loop of line 57, `while (pos < html.length())`. -/
def tokenizeLoop (html : List Char) (st : ScanState) : ScanState :=
  if h : st.pos < html.length then
    tokenizeLoop html (tokenizeStep html st h)
  else st
termination_by html.length - st.pos
decreasing_by
  have key : ∀ (n p : Nat) (t : List Char), html.length - p ≤ n →
      p ≤ (scanTagName html p t).1 := by
    intro n
    induction n with
    | zero =>
      intro p t hp
      rw [scanTagName]
      have : ¬ p < html.length := by omega
      simp [this]
    | succ n ih =>
      intro p t hp
      rw [scanTagName]
      split
      · split
        · have := ih (p + 1) (t ++ [html[p]]) (by omega)
          omega
        · simp
      · simp
  have hstep : st.pos < (tokenizeStep html st h).pos := by
    unfold tokenizeStep
    simp only []
    split
    · have hb : ∀ b : Bool,
          st.pos < (scanTagName html (st.pos + (if b = true then 2 else 1)) []).1 + 1 := by
        intro b
        have := key _ (st.pos + (if b = true then 2 else 1)) [] (le_refl _)
        cases b <;> simp at this ⊢ <;> omega
      exact hb _
    · simp
  omega

/-- The function `tokenize` (lines 52-92): run the loop from `pos = 0` with empty
`tokens` and `buffer`, then flush the remaining text (lines 87-89). -/
def tokenize (html : List Char) : List Token :=
  let st := tokenizeLoop html ⟨[], 0, []⟩
  if st.buffer ≠ [] then st.tokens ++ [⟨TokenType.Text, st.buffer⟩] else st.tokens

/-! ## DOM builder (lines 95-114) -/

/-- A `Node*` into the tree owned by `root`: the child indices leading from the root
to the node. -/
abbrev NodePtr := List Nat

/-- Dereference a pointer: the node reached from `n` along the path. -/
def Node.deref : Node → NodePtr → Option Node
  | n, [] => some n
  | n, i :: p =>
    match n.children[i]? with
    | none => none
    | some c => c.deref p

/-- Apply `g` in place to the node a pointer refers to (a write through the
pointer); the rest of the tree is untouched. -/
def Node.updateAt (g : Node → Node) : NodePtr → Node → Node
  | [], n => g n
  | i :: p, n => ⟨n.name, n.children.modify (Node.updateAt g p) i, n.is_text⟩

/-- The local variables of `build_dom`: the tree owned by `root` and the stack of
open elements. -/
structure BuildState where
  root : Node
  stack : List NodePtr

/-- The body of the `for` loop of `build_dom` (lines 101-110) for one token.
`none` is the undefined behaviour of `stack.back()` on an empty vector (or of a
dangling pointer, which never arises). -/
def buildStep (st : BuildState) (token : Token) : Option BuildState :=
  match token.type with
  | TokenType.StartTag =>
    -- lines 102-104
    match st.stack.getLast? with
    | none => none
    | some top =>
      let root1 := st.root.updateAt (fun n => n.add_child ⟨token.data, [], false⟩) top
      match root1.deref top with
      | none => none
      | some parent =>
        if parent.children.isEmpty then none
        else some ⟨root1, st.stack ++ [top ++ [parent.children.length - 1]]⟩
  | TokenType.EndTag =>
    -- line 106
    if ¬ st.stack.isEmpty then some ⟨st.root, st.stack.dropLast⟩ else some st
  | TokenType.Text =>
    -- lines 108-109
    match st.stack.getLast? with
    | none => none
    | some top =>
      some ⟨st.root.updateAt (fun n => n.add_child ⟨token.data, [], true⟩) top, st.stack⟩

/-- The `for` loop of line 100 over the tokens, in order. -/
def buildLoop : List Token → BuildState → Option BuildState
  | [], st => some st
  | token :: rest, st =>
    match buildStep st token with
    | none => none
    | some st1 => buildLoop rest st1

/-- The state before the loop (lines 96-98): the root `"document"`, and a stack
holding the pointer to the root. -/
def initialBuildState : BuildState :=
  ⟨⟨"document".toList, [], false⟩, [[]]⟩

/-- The function `build_dom` (lines 95-114); `none` when the run reads the top of
an empty stack. -/
def build_dom (tokens : List Token) : Option Node :=
  match buildLoop tokens initialBuildState with
  | none => none
  | some st => some st.root

/-! ## Notions used by the properties -/

/-- Text serialisation of a forest: an element is its children between
`<name>` and `</name>`, a text node is its text; siblings are concatenated. -/
def render : List Node → List Char
  | [] => []
  | ⟨n, cs, t⟩ :: rest =>
    (if t then n else ('<' :: n) ++ ('>' :: render cs) ++ ('<' :: '/' :: n) ++ ['>'])
      ++ render rest

/-- Whether a forest begins with a text node. -/
def firstIsText : List Node → Bool
  | [] => false
  | r :: _ => r.is_text

/-- The forests of the round-trip property: element names contain neither `<` nor
`>` and do not start with `/`; text nodes are non-empty, contain no `<` and have no
children; no two text nodes are adjacent siblings. -/
def wellFormed : List Node → Bool
  | [] => true
  | ⟨n, cs, t⟩ :: rest =>
    (if t then
      !n.isEmpty && !n.contains '<' && cs.isEmpty && !firstIsText rest
    else
      !n.contains '<' && !n.contains '>' && n.head? != some '/' && wellFormed cs)
    && wellFormed rest

/-- Every text node of the tree (forest) has no children. -/
def leavesOk : List Node → Bool
  | [] => true
  | ⟨_, cs, t⟩ :: rest => (!t || cs.isEmpty) && leavesOk cs && leavesOk rest

/-- All nodes of a forest, each before its descendants, siblings left to right. -/
def allNodes : List Node → List Node
  | [] => []
  | ⟨n, cs, t⟩ :: rest => ⟨n, cs, t⟩ :: (allNodes cs ++ allNodes rest)

/-- The last token of `toks` is the tag token of a tag that runs to the end of the
input `s`: its payload is everything in `s` after a `<` (start tag) or after a
`</` (end tag). -/
def endsWithOpenTag (s : List Char) (toks : List Token) : Prop :=
  ∃ (pre : List Char) (init : List Token) (ty : TokenType) (d : List Char),
    toks = init ++ [⟨ty, d⟩] ∧
      ((ty = TokenType.StartTag ∧ s = pre ++ '<' :: d) ∨
       (ty = TokenType.EndTag ∧ s = pre ++ '<' :: '/' :: d))

/-! ## Further notions used by the properties -/

/-- What a token contributes to the tree: a `StartTag` an element node, a `Text`
token a text node, an `EndTag` no node. -/
def tokenLabel (token : Token) : Option (List Char × Bool) :=
  match token.type with
  | TokenType.StartTag => some (token.data, false)
  | TokenType.Text => some (token.data, true)
  | TokenType.EndTag => none

/-- The label and the `is_text` flag of a node. -/
def nodeLabel (n : Node) : List Char × Bool := (n.name, n.is_text)

/-- The pre-order traversal of a forest (depth first, children left to right) as
a list of (label, is_text) pairs. -/
def preorder (f : List Node) : List (List Char × Bool) := (allNodes f).map nodeLabel

/-- The number of tokens of kind `ty` in a token sequence. -/
def countType (ty : TokenType) (ts : List Token) : Nat := ts.countP (fun t => t.type = ty)

/-- The source text of a token: `<n>`, `</n>`, or the text itself. -/
def src (token : Token) : List Char :=
  match token.type with
  | TokenType.StartTag => ['<'] ++ token.data ++ ['>']
  | TokenType.EndTag => ['<', '/'] ++ token.data ++ ['>']
  | TokenType.Text => token.data

/-- The concatenation of `src` over a token sequence. -/
def srcAll : List Token → List Char
  | [] => []
  | token :: rest => src token ++ srcAll rest

/-- The two-state reading of an input (in text / in a tag): `inTag b s` is whether
the reader, being inside a tag iff `b`, is inside a tag after `s`.  A `<` read in
text opens a tag, a `>` read in a tag closes it. -/
def inTag : Bool → List Char → Bool
  | b, [] => b
  | false, c :: s => inTag (c == '<') s
  | true, c :: s => inTag (c != '>') s

/-- The input ends inside a tag: its last tag has no closing `>`. -/
def endsInsideTag (s : List Char) : Bool := inTag false s

/-- The `for (int i = 0; i < depth; ++i) std::cout << "  ";` of `Node::print`. -/
def indent : Nat → List Char
  | 0 => []
  | depth + 1 => ' ' :: ' ' :: indent depth

mutual
/-- The text `Node::print(depth)` writes to `std::cout` (lines 34-48);
`std::endl` is a line feed.  The `int depth` only counts up from 0, one per level
of the tree, and is a `Nat` here. -/
def Node.print : Node → Nat → List Char
  | ⟨name, children, is_text⟩, depth =>
    indent depth ++
    (if is_text then "Text: \"".toList ++ name ++ "\"\n".toList
     else "<".toList ++ name ++ ">\n".toList) ++
    printChildren children (depth + 1) ++
    (if !is_text && decide (depth > 0) then indent depth ++ "</".toList ++ name ++ ">\n".toList
     else [])
/-- The loop of lines 41-43: print every child, in order. -/
def printChildren : List Node → Nat → List Char
  | [], _ => []
  | child :: rest, depth => child.print depth ++ printChildren rest depth
end

/-- The element nodes of a forest, with their nesting and order; text nodes are
left out. -/
def elementsOnly : List Node → List Node
  | [] => []
  | ⟨n, cs, t⟩ :: rest =>
    if t then elementsOnly rest else ⟨n, elementsOnly cs, false⟩ :: elementsOnly rest

/-! ## Auxiliary definitions for the proofs -/

/-- The text token flushed from a buffer, if the buffer is non-empty. -/
def flushText (buffer : List Char) : List Token :=
  if buffer ≠ [] then [⟨TokenType.Text, buffer⟩] else []

/-- The tokens produced from the unread input `s` with `buffer` pending: a
list-recursive description of `tokenizeLoop` followed by the final flush
(see `tokenizeLoop_eq_tokensOf`). -/
def tokensOf (s : List Char) (buffer : List Char) : List Token :=
  match s with
  | [] => flushText buffer
  | c :: rest =>
    if c = '<' then
      let is_end_tag : Bool := rest.head? == some '/'
      let r := if is_end_tag then rest.drop 1 else rest
      flushText buffer ++
        ⟨if is_end_tag then TokenType.EndTag else TokenType.StartTag, r.takeWhile (· != '>')⟩ ::
          tokensOf ((r.dropWhile (· != '>')).drop 1) []
    else tokensOf rest (buffer ++ [c])
termination_by s.length
decreasing_by
  · have key : ∀ r : List Char, r.length ≤ rest.length →
        ((r.dropWhile (· != '>')).drop 1).length < (c :: rest).length := by
      intro r hr
      have h1 := (List.dropWhile_sublist (fun x => x != '>') (l := r)).length_le
      simp only [List.length_drop, List.length_cons]
      omega
    apply key
    split <;> simp
  · simp_wf

/-- The token sequence of a forest: `StartTag`, the children, `EndTag` for an
element; one `Text` token for a text node. -/
def toTokens : List Node → List Token
  | [] => []
  | ⟨n, cs, t⟩ :: rest =>
    (if t then [⟨TokenType.Text, n⟩]
     else ⟨TokenType.StartTag, n⟩ :: toTokens cs ++ [⟨TokenType.EndTag, n⟩]) ++ toTokens rest

/-- The tree denoted by a stack of open frames: `top` is the innermost open
element (without its still-open child), `below` its ancestors, nearest first. -/
def collapse : Node → List Node → Node
  | top, [] => top
  | top, p :: ps => collapse (p.add_child top) ps

/-- The pointer to the innermost open element, from the frames below it. -/
def topPtr : List Node → NodePtr
  | [] => []
  | p :: ps => topPtr ps ++ [p.children.length]

/-- The pointer stack of `build_dom` that corresponds to the frames below the top. -/
def stackOf : List Node → List NodePtr
  | [] => [[]]
  | p :: ps => stackOf ps ++ [topPtr (p :: ps)]

/-- The open-element stack seen as frames: either some elements are open (`top`
innermost, `below` its ancestors up to the root), or even the root has been
popped and `build_dom` holds the finished tree only. -/
inductive Frames where
  | opened (top : Node) (below : List Node)
  | closed (root : Node)

/-- The state of `build_dom` that a frame stack stands for. -/
def Frames.toState : Frames → BuildState
  | Frames.opened top below => ⟨collapse top below, stackOf below⟩
  | Frames.closed root => ⟨root, []⟩

/-- The effect of one token on the frames (see `buildStep_toState`). -/
def frameStep : Frames → Token → Option Frames
  | Frames.opened top below, ⟨TokenType.StartTag, n⟩ =>
    some (Frames.opened ⟨n, [], false⟩ (top :: below))
  | Frames.opened top below, ⟨TokenType.Text, t⟩ =>
    some (Frames.opened (top.add_child ⟨t, [], true⟩) below)
  | Frames.opened top (p :: ps), ⟨TokenType.EndTag, _⟩ =>
    some (Frames.opened (p.add_child top) ps)
  | Frames.opened top [], ⟨TokenType.EndTag, _⟩ => some (Frames.closed top)
  | Frames.closed root, ⟨TokenType.EndTag, _⟩ => some (Frames.closed root)
  | Frames.closed _, ⟨TokenType.StartTag, _⟩ => none
  | Frames.closed _, ⟨TokenType.Text, _⟩ => none

/-- The effect of a token sequence on the frames. -/
def frameLoop : List Token → Frames → Option Frames
  | [], fr => some fr
  | token :: rest, fr =>
    match frameStep fr token with
    | none => none
    | some fr1 => frameLoop rest fr1

/-- The frames hold no text node with children, and no open frame is a text node. -/
def Frames.leavesOk : Frames → Bool
  | Frames.opened top below =>
    !top.is_text && HtmlParser.leavesOk top.children &&
      below.all (fun p => !p.is_text && HtmlParser.leavesOk p.children)
  | Frames.closed root => HtmlParser.leavesOk [root]

/-- At most `n` iterations of the outer loop of `tokenize`. -/
def tokenizeIter (html : List Char) : Nat → ScanState → ScanState
  | 0, st => st
  | n + 1, st =>
    if h : st.pos < html.length then tokenizeIter html n (tokenizeStep html st h) else st

/-- The pre-order labels, root omitted, of the tree denoted by open frames. -/
def openLabels : Node → List Node → List (List Char × Bool)
  | top, [] => preorder top.children
  | top, p :: ps => openLabels p ps ++ nodeLabel top :: preorder top.children

/-- The pre-order labels, root omitted, of the tree held by a frame stack. -/
def Frames.labels : Frames → List (List Char × Bool)
  | Frames.opened top below => openLabels top below
  | Frames.closed root => preorder root.children

/-- A token that needs an open element: a `StartTag` or a `Text` token. -/
def needsOpen (token : Token) : Bool :=
  token.type = TokenType.StartTag || token.type = TokenType.Text

/-- Some `StartTag` or `Text` token of `ts` comes after a prefix that holds more
than `d` more `EndTag` than `StartTag` tokens. -/
def underflowAt (d : Nat) (ts : List Token) : Prop :=
  ∃ (i : Nat) (h : i < ts.length), needsOpen ts[i] = true ∧
    countType TokenType.StartTag (ts.take i) + d < countType TokenType.EndTag (ts.take i)

/-- The shape of a single token of the scanner: a text payload is non-empty and
has no `<`; a tag payload has no `>`; a start-tag payload does not start with `/`. -/
def Token.shapeOk (token : Token) : Prop :=
  match token.type with
  | TokenType.Text => token.data ≠ [] ∧ '<' ∉ token.data
  | TokenType.StartTag => '>' ∉ token.data ∧ token.data.head? ≠ some '/'
  | TokenType.EndTag => '>' ∉ token.data

/-- Two neighbouring tokens are not both `Text` tokens. -/
def notBothText (a b : Token) : Prop :=
  ¬ (a.type = TokenType.Text ∧ b.type = TokenType.Text)

/-- A node whose printed line is read back as intended: a text node has no `<`
in its text and no children; an element name has no `>` and does not start with
`/`. -/
def Node.printOk (m : Node) : Prop :=
  if m.is_text = true then '<' ∉ m.name ∧ m.children = []
  else '>' ∉ m.name ∧ m.name.head? ≠ some '/'

/-- The tokens `toks`, read with some element open, leave that element open and
append to its children nodes whose element part is `g`. -/
def Extends (toks : List Token) (g : List Node) : Prop :=
  ∀ (top : Node) (below : List Node), ∃ top1 : Node,
    frameLoop toks (Frames.opened top below) = some (Frames.opened top1 below) ∧
      top1.name = top.name ∧ top1.is_text = top.is_text ∧
      elementsOnly top1.children = elementsOnly top.children ++ g

/-! ## Lemmas on the DOM builder

Writes through a pointer (`Node.updateAt`) and reads (`Node.deref`) on the tree
denoted by a stack of frames, and the effect of `buildStep` for each token kind. -/


theorem modify_length_append {α : Type} (f : α → α) (l : List α) (x : α) :
    (l ++ [x]).modify f l.length = l ++ [f x] := by
  induction l with
  | nil => rfl
  | cons a l ih => simp [List.modify_succ_cons, ih]

theorem Node.updateAt_append (g : Node → Node) (p q : NodePtr) (n : Node) :
    Node.updateAt g (p ++ q) n = Node.updateAt (Node.updateAt g q) p n := by
  induction p generalizing n with
  | nil => rfl
  | cons i p ih =>
    simp only [List.cons_append, Node.updateAt]
    congr 1
    congr 1
    funext m
    exact ih m

theorem Node.deref_append (p q : NodePtr) (n : Node) :
    n.deref (p ++ q) = (n.deref p).bind (fun m => m.deref q) := by
  induction p generalizing n with
  | nil => rfl
  | cons i p ih =>
    simp only [List.cons_append, Node.deref]
    cases n.children[i]? with
    | none => rfl
    | some c => exact ih c

theorem updateAt_topPtr_collapse (g : Node → Node) (below : List Node) (top : Node) :
    Node.updateAt g (topPtr below) (collapse top below) = collapse (g top) below := by
  induction below generalizing top g with
  | nil => rfl
  | cons p ps ih =>
    simp only [topPtr, collapse]
    rw [Node.updateAt_append, ih]
    congr 1
    simp [Node.updateAt, Node.add_child, modify_length_append]

theorem deref_topPtr_collapse (below : List Node) (top : Node) :
    (collapse top below).deref (topPtr below) = some top := by
  induction below generalizing top with
  | nil => rfl
  | cons p ps ih =>
    simp only [topPtr, collapse]
    rw [Node.deref_append, ih]
    simp [Node.deref, Node.add_child]

theorem getLast?_stackOf (below : List Node) :
    (stackOf below).getLast? = some (topPtr below) := by
  cases below <;> simp [stackOf, topPtr]

theorem stackOf_ne_nil (below : List Node) : stackOf below ≠ [] := by
  cases below <;> simp [stackOf]

theorem buildStep_start (top : Node) (below : List Node) (n : List Char) :
    buildStep ⟨collapse top below, stackOf below⟩ ⟨TokenType.StartTag, n⟩
      = some ⟨collapse ⟨n, [], false⟩ (top :: below), stackOf (top :: below)⟩ := by
  simp only [buildStep, getLast?_stackOf, updateAt_topPtr_collapse, deref_topPtr_collapse]
  simp [Node.add_child, collapse, stackOf, topPtr]

theorem buildStep_text (top : Node) (below : List Node) (t : List Char) :
    buildStep ⟨collapse top below, stackOf below⟩ ⟨TokenType.Text, t⟩
      = some ⟨collapse (top.add_child ⟨t, [], true⟩) below, stackOf below⟩ := by
  simp only [buildStep, getLast?_stackOf, updateAt_topPtr_collapse]

theorem buildStep_end_cons (top p : Node) (ps : List Node) (n : List Char) :
    buildStep ⟨collapse top (p :: ps), stackOf (p :: ps)⟩ ⟨TokenType.EndTag, n⟩
      = some ⟨collapse (p.add_child top) ps, stackOf ps⟩ := by
  simp [buildStep, stackOf, collapse]

theorem buildStep_end_root (root : Node) (n : List Char) :
    buildStep ⟨root, stackOf []⟩ ⟨TokenType.EndTag, n⟩ = some ⟨root, []⟩ := by
  simp [buildStep, stackOf]

theorem buildStep_end_empty (root : Node) (n : List Char) :
    buildStep ⟨root, []⟩ ⟨TokenType.EndTag, n⟩ = some ⟨root, []⟩ := by
  simp [buildStep]

theorem buildStep_start_empty (root : Node) (n : List Char) :
    buildStep ⟨root, []⟩ ⟨TokenType.StartTag, n⟩ = none := by
  simp [buildStep]

theorem buildStep_text_empty (root : Node) (n : List Char) :
    buildStep ⟨root, []⟩ ⟨TokenType.Text, n⟩ = none := by
  simp [buildStep]

theorem buildLoop_append (ts us : List Token) (st : BuildState) :
    buildLoop (ts ++ us) st = (buildLoop ts st).bind (buildLoop us) := by
  induction ts generalizing st with
  | nil => rfl
  | cons t ts ih =>
    simp only [List.cons_append, buildLoop]
    cases buildStep st t with
    | none => rfl
    | some st1 => exact ih st1


theorem leavesOk_append (f g : List Node) :
    leavesOk (f ++ g) = (leavesOk f && leavesOk g) := by
  induction f with
  | nil => simp [leavesOk]
  | cons a f ih =>
    obtain ⟨n, cs, t⟩ := a
    simp [leavesOk, ih, Bool.and_assoc]

theorem buildLoop_toTokens : ∀ (f : List Node), leavesOk f = true →
    ∀ (top : Node) (below : List Node) (rest : List Token),
      buildLoop (toTokens f ++ rest) ⟨collapse top below, stackOf below⟩
        = buildLoop rest ⟨collapse ⟨top.name, top.children ++ f, top.is_text⟩ below,
            stackOf below⟩
  | [], _, top, below, rest => by
    obtain ⟨tn, tc, tt⟩ := top
    simp [toTokens]
  | ⟨n, cs, t⟩ :: f, h, top, below, rest => by
    simp only [leavesOk, Bool.and_eq_true, Bool.or_eq_true, Bool.not_eq_true',
      List.isEmpty_iff] at h
    obtain ⟨⟨h1, h2⟩, h3⟩ := h
    have ihc := buildLoop_toTokens cs h2
    have ihf := buildLoop_toTokens f h3
    cases t with
    | true =>
      have hcs : cs = [] := by simpa using h1
      subst hcs
      simp only [toTokens, if_true, List.cons_append, List.nil_append, buildLoop,
        buildStep_text]
      rw [ihf]
      simp [Node.add_child]
    | false =>
      simp only [toTokens, Bool.false_eq_true, if_false, List.cons_append, List.append_assoc,
        List.nil_append, buildLoop, buildStep_start]
      rw [ihc]
      simp only [buildLoop, buildStep_end_cons, List.nil_append]
      rw [ihf]
      simp [Node.add_child]

theorem build_dom_toTokens (f : List Node) (h : leavesOk f = true) :
    build_dom (toTokens f) = some ⟨"document".toList, f, false⟩ := by
  have := buildLoop_toTokens f h ⟨"document".toList, [], false⟩ [] []
  simp only [List.append_nil, collapse, stackOf, buildLoop, List.nil_append] at this
  simp only [build_dom, initialBuildState, this]

/-! ## Lemmas on the tokenizer

The cursor loop `tokenizeLoop` computes `tokensOf` of the unread input, so that
`tokenize html = tokensOf html []`; then the tokens of a text run, of a closed tag
and of a tag cut off by the end of the input. -/


theorem dropWhile_eq_drop_takeWhile {α : Type} (p : α → Bool) (l : List α) :
    l.dropWhile p = l.drop (l.takeWhile p).length := by
  induction l with
  | nil => rfl
  | cons a l ih =>
    by_cases h : p a <;> simp [List.dropWhile_cons, List.takeWhile_cons, h, ih]

theorem drop_succ_eq_drop_one (html : List Char) (n : Nat) :
    html.drop (n + 1) = (html.drop n).drop 1 := by
  rw [List.drop_drop]

theorem scanTagName_eq (html : List Char) (pos : Nat) (tag_name : List Char) :
    scanTagName html pos tag_name
      = (pos + ((html.drop pos).takeWhile (· != '>')).length,
          tag_name ++ (html.drop pos).takeWhile (· != '>')) := by
  obtain ⟨k, hk⟩ : ∃ k, html.length - pos = k := ⟨_, rfl⟩
  induction k using Nat.strong_induction_on generalizing pos tag_name with
  | _ k ih =>
    rw [scanTagName]
    by_cases hp : pos < html.length
    · have hd := List.drop_eq_getElem_cons hp
      by_cases hc : html[pos] = '>'
      · rw [dif_pos hp, if_neg (by simpa using hc), hd, List.takeWhile_cons]
        simp [hc]
      · rw [dif_pos hp, if_pos hc, ih _ (by omega) _ _ rfl, hd, List.takeWhile_cons]
        have hb : (html[pos] != '>') = true := by simpa using hc
        simp only [hb, if_true, List.length_cons, List.append_assoc, List.singleton_append]
        congr 1
        omega
    · have : html.drop pos = [] := List.drop_eq_nil_of_le (by omega)
      simp [hp, this]

theorem scanTagName_fst_ge (html : List Char) (pos : Nat) (tag_name : List Char) :
    pos ≤ (scanTagName html pos tag_name).1 := by
  rw [scanTagName_eq]; simp

theorem tokenizeStep_pos_lt (html : List Char) (st : ScanState) (h : st.pos < html.length) :
    st.pos < (tokenizeStep html st h).pos := by
  unfold tokenizeStep
  simp only []
  split
  · have := scanTagName_fst_ge html (st.pos + (if (if h1 : st.pos + 1 < html.length then
      decide (html[st.pos + 1] = '/') else false) = true then 2 else 1)) []
    show st.pos < _ + 1
    omega
  · simp

theorem tokenizeLoop_lt (html : List Char) (st : ScanState) (h : st.pos < html.length) :
    tokenizeLoop html st = tokenizeLoop html (tokenizeStep html st h) := by
  rw [tokenizeLoop, dif_pos h]

theorem tokenizeLoop_ge (html : List Char) (st : ScanState) (h : ¬ st.pos < html.length) :
    tokenizeLoop html st = st := by
  rw [tokenizeLoop, dif_neg h]

theorem tokensOf_nil (buffer : List Char) : tokensOf [] buffer = flushText buffer := by
  rw [tokensOf]

theorem tokensOf_cons_ne (c : Char) (rest buffer : List Char) (h : c ≠ '<') :
    tokensOf (c :: rest) buffer = tokensOf rest (buffer ++ [c]) := by
  rw [tokensOf, if_neg h]

theorem tokensOf_lt (rest buffer : List Char) :
    tokensOf ('<' :: rest) buffer
      = flushText buffer ++
        ⟨if (rest.head? == some '/') = true then TokenType.EndTag else TokenType.StartTag,
          (if (rest.head? == some '/') = true then rest.drop 1 else rest).takeWhile (· != '>')⟩ ::
        tokensOf (((if (rest.head? == some '/') = true then rest.drop 1 else rest).dropWhile
          (· != '>')).drop 1) [] := by
  rw [tokensOf, if_pos rfl]

theorem is_end_tag_eq (html : List Char) (pos : Nat) :
    (if h1 : pos + 1 < html.length then decide (html[pos + 1] = '/') else false)
      = ((html.drop (pos + 1)).head? == some '/') := by
  by_cases h1 : pos + 1 < html.length
  · rw [dif_pos h1, List.drop_eq_getElem_cons h1]
    by_cases h2 : html[pos + 1] = '/'
    · simp [h2]
    · have : (html[pos + 1] == '/') = false := by simpa using h2
      simp [h2, List.getElem?_eq_getElem h1]
  · rw [dif_neg h1, List.drop_eq_nil_of_le (by omega)]
    rfl

theorem tokenizeStep_lt (html : List Char) (st : ScanState) (h : st.pos < html.length)
    (hc : html[st.pos] = '<') :
    tokenizeStep html st h
      = ⟨st.tokens ++ flushText st.buffer ++
          [⟨if ((html.drop (st.pos + 1)).head? == some '/') = true then TokenType.EndTag
              else TokenType.StartTag,
            (html.drop (st.pos + (if ((html.drop (st.pos + 1)).head? == some '/') = true
              then 2 else 1))).takeWhile (· != '>')⟩],
         st.pos + (if ((html.drop (st.pos + 1)).head? == some '/') = true then 2 else 1)
           + ((html.drop (st.pos + (if ((html.drop (st.pos + 1)).head? == some '/') = true
              then 2 else 1))).takeWhile (· != '>')).length + 1, []⟩ := by
  simp only [tokenizeStep, hc, if_true, is_end_tag_eq, scanTagName_eq, List.nil_append]
  by_cases hb : st.buffer = []
  · simp [hb, flushText]
  · simp [hb, flushText]

theorem tokenizeStep_ne (html : List Char) (st : ScanState) (h : st.pos < html.length)
    (hc : html[st.pos] ≠ '<') :
    tokenizeStep html st h = ⟨st.tokens, st.pos + 1, st.buffer ++ [html[st.pos]]⟩ := by
  simp only [tokenizeStep, hc, if_false]

theorem tokenizeLoop_eq_tokensOf (html : List Char) (st : ScanState) :
    (tokenizeLoop html st).tokens ++ flushText (tokenizeLoop html st).buffer
      = st.tokens ++ tokensOf (html.drop st.pos) st.buffer := by
  obtain ⟨k, hk⟩ : ∃ k, html.length - st.pos = k := ⟨_, rfl⟩
  induction k using Nat.strong_induction_on generalizing st with
  | _ k ih =>
    by_cases hp : st.pos < html.length
    · have hlt := tokenizeStep_pos_lt html st hp
      rw [tokenizeLoop_lt html st hp, ih _ (by omega) _ rfl, List.drop_eq_getElem_cons hp]
      by_cases hc : html[st.pos] = '<'
      · rw [hc, tokensOf_lt, tokenizeStep_lt html st hp hc]
        simp only [List.append_assoc, List.singleton_append]
        cases ((html.drop (st.pos + 1)).head? == some '/')
        · simp only [Bool.false_eq_true, if_false, dropWhile_eq_drop_takeWhile, List.drop_drop]
        · simp only [if_true, dropWhile_eq_drop_takeWhile, List.drop_drop]
      · rw [tokensOf_cons_ne _ _ _ hc, tokenizeStep_ne html st hp hc]
    · rw [tokenizeLoop_ge html st hp, List.drop_eq_nil_of_le (by omega), tokensOf_nil]

theorem tokenize_eq_tokensOf (html : List Char) : tokenize html = tokensOf html [] := by
  have := tokenizeLoop_eq_tokensOf html ⟨[], 0, []⟩
  simp only [List.nil_append, List.drop_zero] at this
  rw [← this]
  unfold tokenize flushText
  simp only []
  split <;> simp


theorem flushText_nil : flushText [] = [] := by simp [flushText]

theorem flushText_ne_nil (b : List Char) (h : b ≠ []) :
    flushText b = [⟨TokenType.Text, b⟩] := by simp [flushText, h]

theorem takeWhile_tag (n s : List Char) (hn : '>' ∉ n) :
    (n ++ '>' :: s).takeWhile (· != '>') = n := by
  induction n with
  | nil => simp [List.takeWhile_cons]
  | cons a n ih =>
    have ha : a ≠ '>' := fun h => hn (by simp [h])
    have hn2 : '>' ∉ n := fun h => hn (by simp [h])
    simp [List.takeWhile_cons, ha, ih hn2]

theorem dropWhile_tag (n s : List Char) (hn : '>' ∉ n) :
    (n ++ '>' :: s).dropWhile (· != '>') = '>' :: s := by
  induction n with
  | nil => simp [List.dropWhile_cons]
  | cons a n ih =>
    have ha : a ≠ '>' := fun h => hn (by simp [h])
    have hn2 : '>' ∉ n := fun h => hn (by simp [h])
    simp [List.dropWhile_cons, ha, ih hn2]

theorem takeWhile_open (n : List Char) (hn : '>' ∉ n) :
    n.takeWhile (· != '>') = n := by
  induction n with
  | nil => rfl
  | cons a n ih =>
    have ha : a ≠ '>' := fun h => hn (by simp [h])
    have hn2 : '>' ∉ n := fun h => hn (by simp [h])
    simp [List.takeWhile_cons, ha, ih hn2]

theorem dropWhile_open (n : List Char) (hn : '>' ∉ n) :
    n.dropWhile (· != '>') = [] := by
  induction n with
  | nil => rfl
  | cons a n ih =>
    have ha : a ≠ '>' := fun h => hn (by simp [h])
    have hn2 : '>' ∉ n := fun h => hn (by simp [h])
    simp [List.dropWhile_cons, ha, ih hn2]

theorem tokensOf_text_run (t : List Char) (ht : '<' ∉ t) (s buffer : List Char) :
    tokensOf (t ++ s) buffer = tokensOf s (buffer ++ t) := by
  induction t generalizing buffer with
  | nil => simp
  | cons a t ih =>
    have ha : a ≠ '<' := fun h => ht (by simp [h])
    have ht2 : '<' ∉ t := fun h => ht (by simp [h])
    rw [List.cons_append, tokensOf_cons_ne _ _ _ ha, ih ht2]
    simp

theorem tokensOf_startTag (n s buffer : List Char) (hn : '>' ∉ n) (hs : n.head? ≠ some '/') :
    tokensOf ('<' :: (n ++ '>' :: s)) buffer
      = flushText buffer ++ ⟨TokenType.StartTag, n⟩ :: tokensOf s [] := by
  have he : ((n ++ '>' :: s).head? == some '/') = false := by
    cases n with
    | nil => simp
    | cons a n => simpa using hs
  rw [tokensOf_lt, he]
  simp only [Bool.false_eq_true, if_false, takeWhile_tag n s hn, dropWhile_tag n s hn,
    List.drop_succ_cons, List.drop_zero]

theorem tokensOf_endTag (n s buffer : List Char) (hn : '>' ∉ n) :
    tokensOf ('<' :: '/' :: (n ++ '>' :: s)) buffer
      = flushText buffer ++ ⟨TokenType.EndTag, n⟩ :: tokensOf s [] := by
  rw [tokensOf_lt]
  simp only [List.head?_cons, beq_self_eq_true, if_true, List.drop_succ_cons, List.drop_zero,
    takeWhile_tag n s hn, dropWhile_tag n s hn]

theorem tokensOf_openStart (n buffer : List Char) (hn : '>' ∉ n) (hs : n.head? ≠ some '/') :
    tokensOf ('<' :: n) buffer = flushText buffer ++ [⟨TokenType.StartTag, n⟩] := by
  have he : (n.head? == some '/') = false := by
    cases n with
    | nil => simp
    | cons a n => simpa using hs
  rw [tokensOf_lt, he]
  simp only [Bool.false_eq_true, if_false, takeWhile_open n hn, dropWhile_open n hn,
    List.drop_nil, tokensOf_nil, flushText_nil]

theorem tokensOf_openEnd (n buffer : List Char) (hn : '>' ∉ n) :
    tokensOf ('<' :: '/' :: n) buffer = flushText buffer ++ [⟨TokenType.EndTag, n⟩] := by
  rw [tokensOf_lt]
  simp only [List.head?_cons, beq_self_eq_true, if_true, List.drop_succ_cons, List.drop_zero,
    takeWhile_open n hn, dropWhile_open n hn, List.drop_nil, tokensOf_nil, flushText_nil]

theorem tokensOf_break (s buffer : List Char) (hs : s = [] ∨ s.head? = some '<') :
    tokensOf s buffer = flushText buffer ++ tokensOf s [] := by
  cases s with
  | nil => simp [tokensOf_nil, flushText_nil]
  | cons a s =>
    have ha : a = '<' := by simpa using hs
    subst ha
    rw [tokensOf_lt, tokensOf_lt]
    simp [flushText_nil]

/-! ## Round trip of a rendered forest

`tokenize (render f) = toTokens f` for a well-formed forest `f`. -/


theorem wellFormed_leavesOk : ∀ (f : List Node), wellFormed f = true → leavesOk f = true
  | [], _ => by simp [leavesOk]
  | ⟨n, cs, t⟩ :: rest, h => by
    cases t with
    | true =>
      simp only [wellFormed, if_true, Bool.and_eq_true] at h
      obtain ⟨⟨⟨_, hcs⟩, _⟩, hrest⟩ := h
      have hc : cs = [] := by simpa using hcs
      subst hc
      simp [leavesOk, wellFormed_leavesOk rest hrest]
    | false =>
      simp only [wellFormed, Bool.false_eq_true, if_false, Bool.and_eq_true] at h
      obtain ⟨⟨_, hcs⟩, hrest⟩ := h
      simp [leavesOk, wellFormed_leavesOk cs hcs, wellFormed_leavesOk rest hrest]

theorem render_break (f : List Node) (s : List Char) (hf : firstIsText f = false)
    (hs : s = [] ∨ s.head? = some '<') :
    render f ++ s = [] ∨ (render f ++ s).head? = some '<' := by
  cases f with
  | nil => simpa [render] using hs
  | cons r rest =>
    obtain ⟨n, cs, t⟩ := r
    simp only [firstIsText] at hf
    subst hf
    right
    simp [render]

theorem tokensOf_render : ∀ (f : List Node), wellFormed f = true →
    ∀ (s : List Char), (s = [] ∨ s.head? = some '<') →
      tokensOf (render f ++ s) [] = toTokens f ++ tokensOf s []
  | [], _, s, _ => by simp [render, toTokens]
  | ⟨n, cs, t⟩ :: rest, h, s, hs => by
    cases t with
    | true =>
      simp only [wellFormed, if_true, Bool.and_eq_true] at h
      obtain ⟨⟨⟨⟨hne, hlt⟩, _⟩, hadj⟩, hrest⟩ := h
      have hne2 : n ≠ [] := by simpa using hne
      have hlt2 : '<' ∉ n := by simpa using hlt
      have hbr : render rest ++ s = [] ∨ (render rest ++ s).head? = some '<' := by
        exact render_break rest s (by simpa using hadj) hs
      have ih := tokensOf_render rest hrest s hs
      simp only [render, if_true, toTokens, List.append_assoc]
      rw [tokensOf_text_run n hlt2, tokensOf_break _ _ hbr, ih, List.nil_append,
        flushText_ne_nil n hne2]
    | false =>
      simp only [wellFormed, Bool.false_eq_true, if_false, Bool.and_eq_true] at h
      obtain ⟨⟨⟨⟨_, hgt⟩, hsl⟩, hcs⟩, hrest⟩ := h
      have hgt2 : '>' ∉ n := by simpa using hgt
      have hsl2 : n.head? ≠ some '/' := by simpa using hsl
      have ihc := tokensOf_render cs hcs
      have ihr := tokensOf_render rest hrest s hs
      simp only [render, Bool.false_eq_true, if_false, toTokens, List.append_assoc,
        List.cons_append, List.nil_append]
      rw [tokensOf_startTag n _ [] hgt2 hsl2, ihc _ (Or.inr (List.head?_cons ..)), tokensOf_endTag n _ [] hgt2,
        ihr]
      simp [flushText_nil]

theorem tokenize_render (f : List Node) (h : wellFormed f = true) :
    tokenize (render f) = toTokens f := by
  have := tokensOf_render f h [] (Or.inl rfl)
  simpa [tokenize_eq_tokensOf, tokensOf_nil, flushText_nil] using this

/-! ## The frame view of the open-element stack

`buildLoop` on the state of a frame stack is `frameLoop` on the frames; the frames
keep the leaf invariant. -/


theorem buildStep_toState (fr : Frames) (token : Token) :
    buildStep fr.toState token = (frameStep fr token).map Frames.toState := by
  obtain ⟨ty, d⟩ := token
  cases fr with
  | opened top below =>
    cases ty with
    | StartTag => simp [Frames.toState, frameStep, buildStep_start]
    | Text => simp [Frames.toState, frameStep, buildStep_text]
    | EndTag =>
      cases below with
      | nil => simp [Frames.toState, frameStep, buildStep_end_root, collapse]
      | cons p ps => simp [Frames.toState, frameStep, buildStep_end_cons]
  | closed root =>
    cases ty with
    | StartTag => simp [Frames.toState, frameStep, buildStep_start_empty]
    | Text => simp [Frames.toState, frameStep, buildStep_text_empty]
    | EndTag => simp [Frames.toState, frameStep, buildStep_end_empty]

theorem buildLoop_toState (ts : List Token) (fr : Frames) :
    buildLoop ts fr.toState = (frameLoop ts fr).map Frames.toState := by
  induction ts generalizing fr with
  | nil => rfl
  | cons t ts ih =>
    simp only [buildLoop, frameLoop, buildStep_toState]
    cases frameStep fr t with
    | none => rfl
    | some fr1 => simpa using ih fr1

theorem initialBuildState_eq :
    initialBuildState = (Frames.opened ⟨"document".toList, [], false⟩ []).toState := rfl

theorem build_dom_eq_frameLoop (ts : List Token) :
    build_dom ts = (frameLoop ts (Frames.opened ⟨"document".toList, [], false⟩ [])).map
      (fun fr => fr.toState.root) := by
  rw [build_dom, initialBuildState_eq, buildLoop_toState]
  cases frameLoop ts (Frames.opened ⟨"document".toList, [], false⟩ []) <;> rfl

theorem leavesOk_singleton (n : Node) :
    leavesOk [n] = ((!n.is_text || n.children.isEmpty) && leavesOk n.children) := by
  obtain ⟨a, cs, t⟩ := n
  simp [leavesOk]

theorem leavesOk_collapse (top : Node) (below : List Node)
    (h : (Frames.opened top below).leavesOk = true) :
    leavesOk [collapse top below] = true := by
  induction below generalizing top with
  | nil =>
    simp only [Frames.leavesOk, List.all_nil, Bool.and_true, Bool.and_eq_true,
      Bool.not_eq_true'] at h
    simp [collapse, leavesOk_singleton, h.1, h.2]
  | cons p ps ih =>
    simp only [Frames.leavesOk, List.all_cons, Bool.and_eq_true, Bool.not_eq_true'] at h
    obtain ⟨⟨h1, h2⟩, ⟨h3, h4⟩, h5⟩ := h
    apply ih
    simp [Frames.leavesOk, Node.add_child, leavesOk_append, leavesOk_singleton, h1, h2, h3, h4,
      h5]

theorem frameStep_leavesOk (fr fr1 : Frames) (token : Token) (h : fr.leavesOk = true)
    (hs : frameStep fr token = some fr1) : fr1.leavesOk = true := by
  obtain ⟨ty, d⟩ := token
  cases fr with
  | opened top below =>
    cases ty with
    | StartTag =>
      simp only [frameStep, Option.some.injEq] at hs
      subst hs
      simp only [Frames.leavesOk, Bool.and_eq_true, Bool.not_eq_true'] at h
      simp [Frames.leavesOk, leavesOk, h.1.1, h.1.2, h.2]
    | Text =>
      simp only [frameStep, Option.some.injEq] at hs
      subst hs
      simp only [Frames.leavesOk, Bool.and_eq_true, Bool.not_eq_true'] at h
      simp [Frames.leavesOk, Node.add_child, leavesOk_append, leavesOk, h.1.1, h.1.2, h.2]
    | EndTag =>
      cases below with
      | nil =>
        simp only [frameStep, Option.some.injEq] at hs
        subst hs
        simpa [Frames.leavesOk, collapse] using leavesOk_collapse top [] h
      | cons p ps =>
        simp only [frameStep, Option.some.injEq] at hs
        subst hs
        simp only [Frames.leavesOk, List.all_cons, Bool.and_eq_true, Bool.not_eq_true'] at h
        obtain ⟨⟨h1, h2⟩, ⟨h3, h4⟩, h5⟩ := h
        simp [Frames.leavesOk, Node.add_child, leavesOk_append, leavesOk_singleton, h1, h2, h3,
          h4, h5]
  | closed root =>
    cases ty with
    | StartTag => simp [frameStep] at hs
    | Text => simp [frameStep] at hs
    | EndTag =>
      simp only [frameStep, Option.some.injEq] at hs
      subst hs
      exact h

theorem frameLoop_leavesOk (ts : List Token) (fr fr1 : Frames) (h : fr.leavesOk = true)
    (hs : frameLoop ts fr = some fr1) : fr1.leavesOk = true := by
  induction ts generalizing fr with
  | nil =>
    simp only [frameLoop, Option.some.injEq] at hs
    subst hs
    exact h
  | cons t ts ih =>
    simp only [frameLoop] at hs
    cases hf : frameStep fr t with
    | none => simp [hf] at hs
    | some fr2 =>
      rw [hf] at hs
      exact ih fr2 (frameStep_leavesOk fr fr2 t h hf) hs

theorem leavesOk_toState_root (fr : Frames) (h : fr.leavesOk = true) :
    leavesOk [fr.toState.root] = true := by
  cases fr with
  | opened top below => exact leavesOk_collapse top below h
  | closed root => exact h

theorem build_dom_leavesOk_aux (ts : List Token) (r : Node) (h : build_dom ts = some r) :
    leavesOk [r] = true := by
  rw [build_dom_eq_frameLoop] at h
  cases hf : frameLoop ts (Frames.opened ⟨"document".toList, [], false⟩ []) with
  | none =>
    rw [hf] at h
    simp at h
  | some fr =>
    rw [hf] at h
    simp only [Option.map_some', Option.some.injEq] at h
    subst h
    exact leavesOk_toState_root fr
      (frameLoop_leavesOk ts _ fr (by simp [Frames.leavesOk, leavesOk]) hf)

/-! ## Root, payload-independence and loop-bound lemmas -/


theorem Node.updateAt_name (g : Node → Node) (hg : ∀ n, (g n).name = n.name) (p : NodePtr)
    (n : Node) : (Node.updateAt g p n).name = n.name := by
  cases p with
  | nil => exact hg n
  | cons i p => rfl

theorem Node.updateAt_is_text (g : Node → Node) (hg : ∀ n, (g n).is_text = n.is_text)
    (p : NodePtr) (n : Node) : (Node.updateAt g p n).is_text = n.is_text := by
  cases p with
  | nil => exact hg n
  | cons i p => rfl

theorem buildStep_root (st st1 : BuildState) (token : Token)
    (h : buildStep st token = some st1) :
    st1.root.name = st.root.name ∧ st1.root.is_text = st.root.is_text := by
  obtain ⟨ty, d⟩ := token
  cases ty with
  | StartTag =>
    simp only [buildStep] at h
    split at h
    · cases h
    · split at h
      · cases h
      · split at h
        · cases h
        · simp only [Option.some.injEq] at h
          subst h
          exact ⟨Node.updateAt_name (fun n => n.add_child _) (fun _ => rfl) _ _,
            Node.updateAt_is_text (fun n => n.add_child _) (fun _ => rfl) _ _⟩
  | EndTag =>
    simp only [buildStep] at h
    split at h <;> (simp only [Option.some.injEq] at h; subst h; exact ⟨rfl, rfl⟩)
  | Text =>
    simp only [buildStep] at h
    split at h
    · cases h
    · simp only [Option.some.injEq] at h
      subst h
      exact ⟨Node.updateAt_name (fun n => n.add_child _) (fun _ => rfl) _ _,
        Node.updateAt_is_text (fun n => n.add_child _) (fun _ => rfl) _ _⟩

theorem buildLoop_root (ts : List Token) (st st1 : BuildState)
    (h : buildLoop ts st = some st1) :
    st1.root.name = st.root.name ∧ st1.root.is_text = st.root.is_text := by
  induction ts generalizing st with
  | nil =>
    simp only [buildLoop, Option.some.injEq] at h
    subst h
    exact ⟨rfl, rfl⟩
  | cons t ts ih =>
    simp only [buildLoop] at h
    cases hs : buildStep st t with
    | none => rw [hs] at h; cases h
    | some st2 =>
      rw [hs] at h
      have h1 := buildStep_root st st2 t hs
      have h2 := ih st2 h
      exact ⟨h2.1.trans h1.1, h2.2.trans h1.2⟩

theorem build_dom_root (ts : List Token) (r : Node) (h : build_dom ts = some r) :
    r.name = "document".toList ∧ r.is_text = false := by
  unfold build_dom at h
  cases hs : buildLoop ts initialBuildState with
  | none => rw [hs] at h; cases h
  | some st =>
    rw [hs] at h
    simp only [Option.some.injEq] at h
    subst h
    exact buildLoop_root ts _ st hs

theorem buildStep_congr (st : BuildState) (a b : Token) (hty : a.type = b.type)
    (hd : a.type ≠ TokenType.EndTag → a.data = b.data) : buildStep st a = buildStep st b := by
  obtain ⟨ta, da⟩ := a
  obtain ⟨tb, db⟩ := b
  simp only at hty hd
  subst hty
  cases ta with
  | StartTag =>
    have := hd (by simp)
    subst this
    rfl
  | EndTag => rfl
  | Text =>
    have := hd (by simp)
    subst this
    rfl

theorem buildLoop_congr (ts us : List Token) (st : BuildState)
    (h : List.Forall₂ (fun a b => a.type = b.type ∧
      (a.type ≠ TokenType.EndTag → a.data = b.data)) ts us) :
    buildLoop ts st = buildLoop us st := by
  induction h generalizing st with
  | nil => rfl
  | cons hab _ ih =>
    simp only [buildLoop]
    rw [buildStep_congr st _ _ hab.1 hab.2]
    split
    · rfl
    · exact ih _

theorem forall₂_of_getElem {α : Type} (R : α → α → Prop) :
    ∀ (ts us : List α), ts.length = us.length →
      (∀ (i : Nat) (h1 : i < ts.length) (h2 : i < us.length), R ts[i] us[i]) →
      List.Forall₂ R ts us
  | [], [], _, _ => List.Forall₂.nil
  | [], _ :: _, hl, _ => by simp at hl
  | _ :: _, [], hl, _ => by simp at hl
  | a :: ts, b :: us, hl, h => by
    refine List.Forall₂.cons (h 0 (by simp) (by simp)) ?_
    apply forall₂_of_getElem R ts us (by simpa using hl)
    intro i h1 h2
    exact h (i + 1) (by simpa using h1) (by simpa using h2)

theorem scanTagName_fst_le (html : List Char) (pos : Nat) (tag_name : List Char) :
    (scanTagName html pos tag_name).1 ≤ max pos html.length := by
  rw [scanTagName_eq]
  have h1 := (List.takeWhile_sublist (fun x => x != '>') (l := html.drop pos)).length_le
  simp only [List.length_drop] at h1
  show pos + _ ≤ _
  simp only [le_max_iff]
  omega

theorem tokenizeIter_eq_loop (html : List Char) (n : Nat) (st : ScanState)
    (h : html.length - st.pos ≤ n) : tokenizeIter html n st = tokenizeLoop html st := by
  induction n generalizing st with
  | zero =>
    rw [tokenizeLoop_ge html st (by omega)]
    rfl
  | succ n ih =>
    by_cases hp : st.pos < html.length
    · have := tokenizeStep_pos_lt html st hp
      rw [tokenizeLoop_lt html st hp, tokenizeIter, dif_pos hp, ih _ (by omega)]
    · rw [tokenizeLoop_ge html st hp, tokenizeIter, dif_neg hp]

theorem tokenizeLoop_pos_ge (html : List Char) (st : ScanState) :
    ¬ (tokenizeLoop html st).pos < html.length := by
  obtain ⟨k, hk⟩ : ∃ k, html.length - st.pos = k := ⟨_, rfl⟩
  induction k using Nat.strong_induction_on generalizing st with
  | _ k ih =>
    by_cases hp : st.pos < html.length
    · have := tokenizeStep_pos_lt html st hp
      rw [tokenizeLoop_lt html st hp]
      exact ih _ (by omega) _ rfl
    · rw [tokenizeLoop_ge html st hp]
      exact hp

theorem tokenize_eq_flush (html : List Char) :
    tokenize html = (tokenizeLoop html ⟨[], 0, []⟩).tokens
      ++ flushText (tokenizeLoop html ⟨[], 0, []⟩).buffer := by
  unfold tokenize flushText
  simp only []
  split <;> simp

/-! ## Unterminated tags

An input `p ++ "<" ++ n` with no `>` in `n` ends inside a tag: its tokens are those
of the same input followed by `>`. -/


theorem split_first_gt (l : List Char) (h : '>' ∈ l) :
    ∃ q1 q2, l = q1 ++ '>' :: q2 ∧ '>' ∉ q1 := by
  induction l with
  | nil => simp at h
  | cons a l ih =>
    by_cases ha : a = '>'
    · exact ⟨[], l, by simp [ha], by simp⟩
    · have hl : '>' ∈ l := by
        rcases List.mem_cons.mp h with h1 | h1
        · exact absurd h1.symm ha
        · exact h1
      obtain ⟨q1, q2, h1, h2⟩ := ih hl
      refine ⟨a :: q1, q2, by simp [h1], ?_⟩
      intro hm
      rcases List.mem_cons.mp hm with h3 | h3
      · exact ha h3.symm
      · exact h2 h3

theorem endsWithOpenTag_append (pre0 s : List Char) (init0 toks : List Token)
    (h : endsWithOpenTag s toks) : endsWithOpenTag (pre0 ++ s) (init0 ++ toks) := by
  obtain ⟨pre, init, ty, d, h1, h2⟩ := h
  refine ⟨pre0 ++ pre, init0 ++ init, ty, d, by simp [h1], ?_⟩
  rcases h2 with ⟨h3, h4⟩ | ⟨h3, h4⟩
  · exact Or.inl ⟨h3, by simp [h4]⟩
  · exact Or.inr ⟨h3, by simp [h4]⟩

theorem tokensOf_closedTag (q s buffer : List Char) (hq : '>' ∉ q) :
    ∃ tok, tokensOf ('<' :: (q ++ '>' :: s)) buffer = flushText buffer ++ tok :: tokensOf s []
      ∧ ∀ s2 b2, tokensOf ('<' :: (q ++ '>' :: s2)) b2 = flushText b2 ++ tok :: tokensOf s2 [] := by
  by_cases hs : q.head? = some '/'
  · cases q with
    | nil => simp at hs
    | cons a q =>
      have ha : a = '/' := by simpa using hs
      subst ha
      have hq2 : '>' ∉ q := fun h => hq (by simp [h])
      exact ⟨⟨TokenType.EndTag, q⟩, tokensOf_endTag q s buffer hq2,
        fun s2 b2 => tokensOf_endTag q s2 b2 hq2⟩
  · exact ⟨⟨TokenType.StartTag, q⟩, tokensOf_startTag q s buffer hq hs,
      fun s2 b2 => tokensOf_startTag q s2 b2 hq hs⟩

theorem tokensOf_open_tag (n buffer : List Char) (hn : '>' ∉ n) :
    tokensOf ('<' :: (n ++ ['>'])) buffer = tokensOf ('<' :: n) buffer ∧
      endsWithOpenTag ('<' :: n) (tokensOf ('<' :: n) buffer) := by
  by_cases hs : n.head? = some '/'
  · cases n with
    | nil => simp at hs
    | cons a n =>
      have ha : a = '/' := by simpa using hs
      subst ha
      have hn2 : '>' ∉ n := fun h => hn (by simp [h])
      rw [List.cons_append, tokensOf_endTag n [] buffer hn2, tokensOf_openEnd n buffer hn2,
        tokensOf_nil, flushText_nil]
      exact ⟨rfl, [], flushText buffer, TokenType.EndTag, n, rfl, Or.inr ⟨rfl, rfl⟩⟩
  · rw [tokensOf_startTag n [] buffer hn hs, tokensOf_openStart n buffer hn hs,
      tokensOf_nil, flushText_nil]
    exact ⟨rfl, [], flushText buffer, TokenType.StartTag, n, rfl, Or.inl ⟨rfl, rfl⟩⟩

theorem tokensOf_unterminated (n : List Char) (hn : '>' ∉ n) :
    ∀ (k : Nat) (p buffer : List Char), p.length ≤ k →
      tokensOf (p ++ '<' :: (n ++ ['>'])) buffer = tokensOf (p ++ '<' :: n) buffer ∧
        endsWithOpenTag (p ++ '<' :: n) (tokensOf (p ++ '<' :: n) buffer) := by
  intro k
  induction k using Nat.strong_induction_on with
  | _ k ih =>
    intro p buffer hp
    cases p with
    | nil => exact tokensOf_open_tag n buffer hn
    | cons c p =>
      simp only [List.length_cons] at hp
      by_cases hc : c = '<'
      · subst hc
        by_cases hgt : '>' ∈ p
        · obtain ⟨q1, q2, h1, h2⟩ := split_first_gt p hgt
          subst h1
          have hlen : q2.length ≤ k - 1 := by
            simp only [List.length_append, List.length_cons] at hp
            omega
          obtain ⟨tok, _, htok⟩ := tokensOf_closedTag q1 [] [] h2
          have e1 := htok (q2 ++ '<' :: (n ++ ['>'])) buffer
          have e2 := htok (q2 ++ '<' :: n) buffer
          obtain ⟨i1, i2⟩ := ih (k - 1) (by omega) q2 [] hlen
          simp only [List.cons_append, List.append_assoc] at e1 e2 ⊢
          rw [e1, e2, i1]
          refine ⟨rfl, ?_⟩
          have := endsWithOpenTag_append ('<' :: (q1 ++ ['>'])) _ (flushText buffer ++ [tok]) _ i2
          simpa using this
        · have hn2 : '>' ∉ p ++ '<' :: n := by
            intro hm
            rcases List.mem_append.mp hm with h3 | h3
            · exact hgt h3
            · rcases List.mem_cons.mp h3 with h4 | h4
              · exact absurd h4 (by decide)
              · exact hn h4
          have := tokensOf_open_tag (p ++ '<' :: n) buffer hn2
          simpa using this
      · obtain ⟨i1, i2⟩ := ih (k - 1) (by omega) p (buffer ++ [c]) (by omega)
        simp only [List.cons_append]
        rw [tokensOf_cons_ne _ _ _ hc, tokensOf_cons_ne _ _ _ hc, i1]
        refine ⟨rfl, ?_⟩
        have := endsWithOpenTag_append [c] _ [] _ i2
        simpa using this


theorem leavesOk_allNodes : ∀ (f : List Node), leavesOk f = true →
    ∀ m ∈ allNodes f, m.is_text = true → m.children = []
  | [], _, m, hm, _ => by simp [allNodes] at hm
  | ⟨n, cs, t⟩ :: rest, h, m, hm, ht => by
    simp only [leavesOk, Bool.and_eq_true, Bool.or_eq_true, Bool.not_eq_true',
      List.isEmpty_iff] at h
    obtain ⟨⟨h1, h2⟩, h3⟩ := h
    simp only [allNodes, List.mem_cons, List.mem_append] at hm
    rcases hm with hm | hm | hm
    · subst hm
      simp only at ht
      rcases h1 with h1 | h1
      · rw [ht] at h1; cases h1
      · simpa using h1
    · exact leavesOk_allNodes cs h2 m hm ht
    · exact leavesOk_allNodes rest h3 m hm ht


/-! ## Document order and trailing end tags -/

theorem allNodes_append (f g : List Node) : allNodes (f ++ g) = allNodes f ++ allNodes g := by
  induction f with
  | nil => simp [allNodes]
  | cons a f ih =>
    obtain ⟨n, cs, t⟩ := a
    simp [allNodes, ih]

theorem preorder_append (f g : List Node) : preorder (f ++ g) = preorder f ++ preorder g := by
  simp [preorder, allNodes_append]

theorem preorder_singleton (n : Node) : preorder [n] = nodeLabel n :: preorder n.children := by
  obtain ⟨a, cs, t⟩ := n
  simp [preorder, allNodes]

theorem preorder_nil : preorder [] = [] := by
  simp [preorder, allNodes]

theorem openLabels_add_child (top p : Node) (ps : List Node) :
    openLabels (p.add_child top) ps = openLabels top (p :: ps) := by
  cases ps with
  | nil => simp [openLabels, Node.add_child, preorder_append, preorder_singleton]
  | cons q qs =>
    simp [openLabels, Node.add_child, preorder_append, preorder_singleton, nodeLabel]

theorem preorder_collapse (top : Node) (below : List Node) :
    preorder (collapse top below).children = openLabels top below := by
  induction below generalizing top with
  | nil => rfl
  | cons p ps ih => rw [collapse, ih, openLabels_add_child]

theorem Frames.preorder_toState (fr : Frames) :
    preorder fr.toState.root.children = fr.labels := by
  cases fr with
  | opened top below => exact preorder_collapse top below
  | closed root => rfl

theorem openLabels_add_text (top : Node) (below : List Node) (c : Node)
    (hc : c.children = []) :
    openLabels (top.add_child c) below = openLabels top below ++ [nodeLabel c] := by
  cases below with
  | nil => simp [openLabels, Node.add_child, preorder_append, preorder_singleton, hc, preorder_nil]
  | cons q qs =>
    simp [openLabels, Node.add_child, preorder_append, preorder_singleton, hc, preorder_nil,
      nodeLabel]

theorem frameStep_labels (fr fr1 : Frames) (token : Token)
    (h : frameStep fr token = some fr1) :
    fr1.labels = fr.labels ++ (tokenLabel token).toList := by
  obtain ⟨ty, d⟩ := token
  cases fr with
  | opened top below =>
    cases ty with
    | StartTag =>
      simp only [frameStep, Option.some.injEq] at h
      subst h
      simp [Frames.labels, openLabels, tokenLabel, nodeLabel, preorder_nil]
    | Text =>
      simp only [frameStep, Option.some.injEq] at h
      subst h
      simp [Frames.labels, openLabels_add_text, tokenLabel, nodeLabel]
    | EndTag =>
      cases below with
      | nil =>
        simp only [frameStep, Option.some.injEq] at h
        subst h
        simp [Frames.labels, openLabels, tokenLabel]
      | cons p ps =>
        simp only [frameStep, Option.some.injEq] at h
        subst h
        simp [Frames.labels, openLabels_add_child, tokenLabel]
  | closed root =>
    cases ty with
    | StartTag => simp [frameStep] at h
    | Text => simp [frameStep] at h
    | EndTag =>
      simp only [frameStep, Option.some.injEq] at h
      subst h
      simp [tokenLabel]

theorem frameLoop_labels (ts : List Token) (fr fr1 : Frames)
    (h : frameLoop ts fr = some fr1) :
    fr1.labels = fr.labels ++ ts.filterMap tokenLabel := by
  induction ts generalizing fr with
  | nil =>
    simp only [frameLoop, Option.some.injEq] at h
    subst h
    simp
  | cons t ts ih =>
    simp only [frameLoop] at h
    cases hf : frameStep fr t with
    | none => rw [hf] at h; cases h
    | some fr2 =>
      rw [hf] at h
      rw [ih fr2 h, frameStep_labels fr fr2 t hf]
      cases hl : tokenLabel t <;> simp [List.filterMap_cons, hl]

theorem build_dom_preorder (ts : List Token) (r : Node) (h : build_dom ts = some r) :
    preorder r.children = ts.filterMap tokenLabel := by
  rw [build_dom_eq_frameLoop] at h
  cases hf : frameLoop ts (Frames.opened ⟨"document".toList, [], false⟩ []) with
  | none =>
    rw [hf] at h
    simp at h
  | some fr =>
    rw [hf] at h
    simp only [Option.map_some', Option.some.injEq] at h
    subst h
    rw [Frames.preorder_toState, frameLoop_labels ts _ fr hf]
    simp [Frames.labels, openLabels, preorder_nil]

theorem length_filterMap_tokenLabel (ts : List Token) :
    (ts.filterMap tokenLabel).length
      = countType TokenType.StartTag ts + countType TokenType.Text ts := by
  induction ts with
  | nil => rfl
  | cons t ts ih =>
    obtain ⟨ty, d⟩ := t
    cases ty <;>
      simp [List.filterMap_cons, tokenLabel, countType, List.countP_cons] at ih ⊢ <;> omega

theorem buildStep_end_root_same (st : BuildState) (token : Token)
    (h : token.type = TokenType.EndTag) :
    ∃ st1, buildStep st token = some st1 ∧ st1.root = st.root := by
  obtain ⟨ty, d⟩ := token
  simp only at h
  subst h
  simp only [buildStep]
  split
  · exact ⟨_, rfl, rfl⟩
  · exact ⟨_, rfl, rfl⟩

theorem buildLoop_end_tags (es : List Token) (st : BuildState)
    (h : ∀ e ∈ es, e.type = TokenType.EndTag) :
    ∃ st1, buildLoop es st = some st1 ∧ st1.root = st.root := by
  induction es generalizing st with
  | nil => exact ⟨st, rfl, rfl⟩
  | cons e es ih =>
    obtain ⟨st1, h1, h2⟩ := buildStep_end_root_same st e (h e (by simp))
    obtain ⟨st2, h3, h4⟩ := ih st1 (fun x hx => h x (by simp [hx]))
    refine ⟨st2, ?_, h4.trans h2⟩
    simp only [buildLoop, h1, h3]

theorem build_dom_append_end_tags (ts es : List Token) (r : Node)
    (h : build_dom ts = some r) (hes : ∀ e ∈ es, e.type = TokenType.EndTag) :
    build_dom (ts ++ es) = some r := by
  unfold build_dom at h ⊢
  rw [buildLoop_append]
  cases hs : buildLoop ts initialBuildState with
  | none => rw [hs] at h; cases h
  | some st =>
    rw [hs] at h
    simp only [Option.some.injEq] at h
    obtain ⟨st1, h1, h2⟩ := buildLoop_end_tags es st hes
    simp only [Option.some_bind, h1, h2, h]

/-! ## The failure condition of build_dom -/

theorem underflowAt_cons (d : Nat) (t : Token) (ts : List Token) :
    underflowAt d (t :: ts) ↔
      ∃ (i : Nat) (h : i < ts.length), needsOpen ts[i] = true ∧
        countType TokenType.StartTag (t :: ts.take i) + d
          < countType TokenType.EndTag (t :: ts.take i) := by
  constructor
  · rintro ⟨i, h, h1, h2⟩
    cases i with
    | zero => simp [countType] at h2
    | succ i =>
      refine ⟨i, by simpa using h, by simpa using h1, ?_⟩
      simpa using h2
  · rintro ⟨i, h, h1, h2⟩
    exact ⟨i + 1, by simpa using h, by simpa using h1, by simpa using h2⟩

theorem underflowAt_cons_start (d : Nat) (n : List Char) (ts : List Token) :
    underflowAt d (⟨TokenType.StartTag, n⟩ :: ts) ↔ underflowAt (d + 1) ts := by
  rw [underflowAt_cons]
  simp only [underflowAt, countType, List.countP_cons]
  constructor
  · rintro ⟨i, h, h1, h2⟩
    exact ⟨i, h, h1, by simp at h2; omega⟩
  · rintro ⟨i, h, h1, h2⟩
    exact ⟨i, h, h1, by simp; omega⟩

theorem underflowAt_cons_text (d : Nat) (n : List Char) (ts : List Token) :
    underflowAt d (⟨TokenType.Text, n⟩ :: ts) ↔ underflowAt d ts := by
  rw [underflowAt_cons]
  simp only [underflowAt, countType, List.countP_cons]
  constructor
  · rintro ⟨i, h, h1, h2⟩
    exact ⟨i, h, h1, by simpa using h2⟩
  · rintro ⟨i, h, h1, h2⟩
    exact ⟨i, h, h1, by simpa using h2⟩

theorem underflowAt_cons_end_succ (d : Nat) (n : List Char) (ts : List Token) :
    underflowAt (d + 1) (⟨TokenType.EndTag, n⟩ :: ts) ↔ underflowAt d ts := by
  rw [underflowAt_cons]
  simp only [underflowAt, countType, List.countP_cons]
  constructor
  · rintro ⟨i, h, h1, h2⟩
    exact ⟨i, h, h1, by simp at h2; omega⟩
  · rintro ⟨i, h, h1, h2⟩
    exact ⟨i, h, h1, by simp; omega⟩

theorem exists_first_needsOpen (ts : List Token) (h : ∃ t ∈ ts, needsOpen t = true) :
    ∃ (i : Nat) (hi : i < ts.length), needsOpen ts[i] = true ∧
      countType TokenType.StartTag (ts.take i) = 0 := by
  induction ts with
  | nil => simp at h
  | cons t ts ih =>
    by_cases ht : needsOpen t = true
    · exact ⟨0, by simp, by simpa using ht, by simp [countType]⟩
    · have h2 : ∃ t ∈ ts, needsOpen t = true := by
        obtain ⟨x, hx, hx2⟩ := h
        rcases List.mem_cons.mp hx with h3 | h3
        · subst h3; exact absurd hx2 ht
        · exact ⟨x, h3, hx2⟩
      obtain ⟨i, hi, h3, h4⟩ := ih h2
      refine ⟨i + 1, by simpa using hi, by simpa using h3, ?_⟩
      have hns : t.type ≠ TokenType.StartTag := by
        intro hs
        exact ht (by simp [needsOpen, hs])
      simp only [countType] at h4
      simp [countType, List.countP_cons, h4, hns]

theorem underflowAt_cons_end_zero (n : List Char) (ts : List Token) :
    underflowAt 0 (⟨TokenType.EndTag, n⟩ :: ts) ↔ ∃ t ∈ ts, needsOpen t = true := by
  rw [underflowAt_cons]
  constructor
  · rintro ⟨i, h, h1, _⟩
    exact ⟨ts[i], List.getElem_mem h, h1⟩
  · intro h
    obtain ⟨i, hi, h1, h2⟩ := exists_first_needsOpen ts h
    refine ⟨i, hi, h1, ?_⟩
    simp only [countType] at h2
    simp [countType, List.countP_cons, h2]

theorem frameLoop_closed_eq_none (ts : List Token) (root : Node) :
    frameLoop ts (Frames.closed root) = none ↔ ∃ t ∈ ts, needsOpen t = true := by
  induction ts with
  | nil => simp [frameLoop]
  | cons t ts ih =>
    obtain ⟨ty, d⟩ := t
    cases ty with
    | StartTag => simp [frameLoop, frameStep, needsOpen]
    | Text => simp [frameLoop, frameStep, needsOpen]
    | EndTag =>
      simp only [frameLoop, frameStep, ih]
      simp [needsOpen]

theorem frameLoop_opened_eq_none (ts : List Token) (top : Node) (below : List Node) :
    frameLoop ts (Frames.opened top below) = none ↔ underflowAt below.length ts := by
  induction ts generalizing top below with
  | nil => simp [frameLoop, underflowAt]
  | cons t ts ih =>
    obtain ⟨ty, d⟩ := t
    cases ty with
    | StartTag =>
      simp only [frameLoop, frameStep, ih, underflowAt_cons_start, List.length_cons]
    | Text =>
      simp only [frameLoop, frameStep, ih, underflowAt_cons_text]
    | EndTag =>
      cases below with
      | nil =>
        simp only [frameLoop, frameStep, frameLoop_closed_eq_none, List.length_nil,
          underflowAt_cons_end_zero]
      | cons p ps =>
        simp only [frameLoop, frameStep, ih, List.length_cons, underflowAt_cons_end_succ]

theorem build_dom_eq_none_iff (ts : List Token) :
    build_dom ts = none ↔ underflowAt 0 ts := by
  rw [build_dom_eq_frameLoop, Option.map_eq_none', frameLoop_opened_eq_none]
  rfl

/-! ## The tokens reproduce the input -/

theorem srcAll_append (a b : List Token) : srcAll (a ++ b) = srcAll a ++ srcAll b := by
  induction a with
  | nil => rfl
  | cons t a ih => simp [srcAll, ih]

theorem srcAll_flushText (buffer : List Char) : srcAll (flushText buffer) = buffer := by
  by_cases h : buffer = []
  · simp [flushText, h, srcAll]
  · simp [flushText, h, srcAll, src]

theorem dropWhile_gt_cases (r : List Char) :
    r.dropWhile (· != '>') = [] ∨
      r.dropWhile (· != '>') = '>' :: (r.dropWhile (· != '>')).drop 1 := by
  induction r with
  | nil => left; rfl
  | cons c r ih =>
    by_cases hc : c = '>'
    · right
      subst hc
      simp [List.dropWhile_cons]
    · have hb : (c != '>') = true := by simpa using hc
      simp only [List.dropWhile_cons, hb, if_true]
      exact ih

theorem inTag_true_eq (r : List Char) :
    inTag true r = (if r.dropWhile (· != '>') = [] then true
      else inTag false ((r.dropWhile (· != '>')).drop 1)) := by
  induction r with
  | nil => simp [inTag]
  | cons c r ih =>
    by_cases hc : c = '>'
    · subst hc
      simp [inTag, List.dropWhile_cons]
    · have hb : (c != '>') = true := by simpa using hc
      simp only [inTag, List.dropWhile_cons, hb, if_true]
      exact ih

theorem tagBody_length_lt (c : Char) (rest : List Char) (b : Bool) :
    (((if b = true then rest.drop 1 else rest).dropWhile (· != '>')).drop 1).length
      < (c :: rest).length := by
  have h1 := (List.dropWhile_sublist (fun x => x != '>')
    (l := if b = true then rest.drop 1 else rest)).length_le
  have h2 : (if b = true then rest.drop 1 else rest).length ≤ rest.length := by
    split <;> simp
  simp only [List.length_drop, List.length_cons]
  omega

theorem rest_eq_of_head (rest : List Char) :
    rest = (if (rest.head? == some '/') = true then ['/'] else [])
      ++ (if (rest.head? == some '/') = true then rest.drop 1 else rest) := by
  cases rest with
  | nil => simp
  | cons a rest =>
    by_cases ha : a = '/'
    · subst ha; simp
    · have : (a == '/') = false := by simpa using ha
      simp [ha]

theorem inTag_true_rest (rest : List Char) :
    inTag true rest
      = inTag true (if (rest.head? == some '/') = true then rest.drop 1 else rest) := by
  cases rest with
  | nil => simp
  | cons a rest =>
    by_cases ha : a = '/'
    · subst ha; simp [inTag]
    · simp [ha]

theorem src_tag (e : Bool) (d : List Char) :
    src ⟨if e = true then TokenType.EndTag else TokenType.StartTag, d⟩
      = '<' :: ((if e = true then ['/'] else []) ++ d ++ ['>']) := by
  cases e <;> simp [src]

theorem srcAll_tokensOf (s buffer : List Char) :
    srcAll (tokensOf s buffer)
      = buffer ++ (if endsInsideTag s = true then s ++ ['>'] else s) := by
  obtain ⟨k, hk⟩ : ∃ k, s.length = k := ⟨_, rfl⟩
  induction k using Nat.strong_induction_on generalizing s buffer with
  | _ k ih =>
    cases s with
    | nil => simp [tokensOf_nil, srcAll_flushText, endsInsideTag, inTag]
    | cons c rest =>
      by_cases hc : c = '<'
      · subst hc
        have hlen := tagBody_length_lt '<' rest (rest.head? == some '/')
        have hi := ih _ (by rw [← hk]; exact hlen) _ [] rfl
        rw [tokensOf_lt, srcAll_append, srcAll_flushText, srcAll, hi, src_tag]
        have hI : endsInsideTag ('<' :: rest)
            = inTag true (if (rest.head? == some '/') = true then rest.drop 1 else rest) := by
          simp only [endsInsideTag, inTag, beq_self_eq_true]
          exact inTag_true_rest rest
        have hT := inTag_true_eq
          (if (rest.head? == some '/') = true then rest.drop 1 else rest)
        have hR := rest_eq_of_head rest
        have hA := List.takeWhile_append_dropWhile (fun x => x != '>')
          (if (rest.head? == some '/') = true then rest.drop 1 else rest)
        rw [hI, hT]
        generalize hr : (if (rest.head? == some '/') = true then rest.drop 1 else rest) = r
          at hA hR ⊢
        generalize hp : (if (rest.head? == some '/') = true then ['/'] else []) = pre
          at hR ⊢
        rcases dropWhile_gt_cases r with hD | hD
        · rw [hD] at hA ⊢
          simp only [List.append_nil] at hA
          rw [hA]
          simp only [List.drop_nil, endsInsideTag, inTag, if_true, Bool.false_eq_true, if_false,
            List.nil_append, List.append_nil]
          rw [hR]
          simp
        · generalize hs2 : (List.dropWhile (fun x => x != '>') r).drop 1 = s2 at hD ⊢
          rw [hD] at hA
          have hne : ¬ (List.dropWhile (fun x => x != '>') r = []) := by
            rw [hD]; simp
          rw [if_neg hne]
          generalize htw : List.takeWhile (fun x => x != '>') r = tw at hA ⊢
          simp only [List.nil_append, endsInsideTag]
          rw [hR, ← hA]
          split <;> simp
      · have hi := ih _ (by rw [← hk]; simp) rest (buffer ++ [c]) rfl
        rw [tokensOf_cons_ne _ _ _ hc, hi]
        have hb : (c == '<') = false := by simpa using hc
        simp [endsInsideTag, inTag, hb]
        split <;> simp

/-! ## The shape of the scanner's output -/

theorem not_mem_takeWhile_gt (r : List Char) : '>' ∉ r.takeWhile (· != '>') := by
  intro h
  have := List.mem_takeWhile_imp h
  simp at this

theorem head?_takeWhile_ne (r : List Char) (a : Char) (h : r.head? ≠ some a) :
    (r.takeWhile (· != '>')).head? ≠ some a := by
  cases r with
  | nil => simp
  | cons c r =>
    simp only [List.takeWhile_cons]
    split
    · simpa using h
    · simp

theorem shapeOk_flushText (buffer : List Char) (hb : '<' ∉ buffer) :
    ∀ t ∈ flushText buffer, t.shapeOk := by
  intro t ht
  by_cases h : buffer = []
  · simp [flushText, h] at ht
  · simp only [flushText, h, ne_eq, not_false_eq_true, if_true, List.mem_singleton] at ht
    subst ht
    exact ⟨h, hb⟩

theorem shapeOk_tag (rest : List Char) :
    Token.shapeOk ⟨if (rest.head? == some '/') = true then TokenType.EndTag
        else TokenType.StartTag,
      (if (rest.head? == some '/') = true then rest.drop 1 else rest).takeWhile
        (· != '>')⟩ := by
  cases hb : (rest.head? == some '/')
  · simp only [Bool.false_eq_true, if_false, Token.shapeOk]
    refine ⟨not_mem_takeWhile_gt rest, head?_takeWhile_ne rest '/' ?_⟩
    intro h
    simp [h] at hb
  · simp only [if_true, Token.shapeOk]
    exact not_mem_takeWhile_gt _

theorem chain_flush_tag (buffer : List Char) (tag : Token) (l : List Token)
    (htag : tag.type ≠ TokenType.Text) (hl : List.Chain' notBothText l) :
    List.Chain' notBothText (flushText buffer ++ tag :: l) := by
  have h1 : List.Chain' notBothText (tag :: l) := by
    rw [List.chain'_cons']
    exact ⟨fun y _ h => htag h.1, hl⟩
  by_cases h : buffer = []
  · simpa [flushText, h] using h1
  · simp only [flushText, h, ne_eq, not_false_eq_true, if_true, List.singleton_append]
    rw [List.chain'_cons]
    exact ⟨fun h2 => htag h2.2, h1⟩

theorem tag_type_ne_text (e : Bool) (d : List Char) :
    (⟨if e = true then TokenType.EndTag else TokenType.StartTag, d⟩ : Token).type
      ≠ TokenType.Text := by
  cases e <;> simp

theorem tokensOf_shape (s buffer : List Char) (hb : '<' ∉ buffer) :
    (∀ t ∈ tokensOf s buffer, t.shapeOk) ∧ List.Chain' notBothText (tokensOf s buffer) := by
  obtain ⟨k, hk⟩ : ∃ k, s.length = k := ⟨_, rfl⟩
  induction k using Nat.strong_induction_on generalizing s buffer with
  | _ k ih =>
    cases s with
    | nil =>
      rw [tokensOf_nil]
      refine ⟨shapeOk_flushText buffer hb, ?_⟩
      by_cases h : buffer = [] <;> simp [flushText, h]
    | cons c rest =>
      by_cases hc : c = '<'
      · subst hc
        have hlen := tagBody_length_lt '<' rest (rest.head? == some '/')
        obtain ⟨i1, i2⟩ := ih _ (by rw [← hk]; exact hlen) _ [] (by simp) rfl
        rw [tokensOf_lt]
        constructor
        · intro t ht
          rcases List.mem_append.mp ht with h1 | h1
          · exact shapeOk_flushText buffer hb t h1
          · rcases List.mem_cons.mp h1 with h2 | h2
            · rw [h2]
              exact shapeOk_tag rest
            · exact i1 t h2
        · exact chain_flush_tag buffer _ _ (tag_type_ne_text _ _) i2
      · rw [tokensOf_cons_ne _ _ _ hc]
        apply ih _ (by rw [← hk]; simp) rest (buffer ++ [c]) _ rfl
        intro h
        rcases List.mem_append.mp h with h1 | h1
        · exact hb h1
        · have h2 : '<' = c := by simpa using h1
          exact hc h2.symm

/-! ## Reading back the printed tree -/

theorem frameLoop_append (ts us : List Token) (fr : Frames) :
    frameLoop (ts ++ us) fr = (frameLoop ts fr).bind (frameLoop us) := by
  induction ts generalizing fr with
  | nil => rfl
  | cons t ts ih =>
    simp only [List.cons_append, frameLoop]
    cases frameStep fr t with
    | none => rfl
    | some fr1 => exact ih fr1

theorem elementsOnly_append (f g : List Node) :
    elementsOnly (f ++ g) = elementsOnly f ++ elementsOnly g := by
  induction f with
  | nil => simp [elementsOnly]
  | cons a f ih =>
    obtain ⟨n, cs, t⟩ := a
    cases t <;> simp [elementsOnly, ih]

theorem Extends.nil : Extends [] [] := by
  intro top below
  exact ⟨top, rfl, rfl, rfl, by simp⟩

theorem Extends.append {a b : List Token} {g1 g2 : List Node} (ha : Extends a g1)
    (hb : Extends b g2) : Extends (a ++ b) (g1 ++ g2) := by
  intro top below
  obtain ⟨top1, h1, h2, h3, h4⟩ := ha top below
  obtain ⟨top2, h5, h6, h7, h8⟩ := hb top1 below
  refine ⟨top2, ?_, h6.trans h2, h7.trans h3, ?_⟩
  · rw [frameLoop_append, h1]
    exact h5
  · rw [h8, h4, List.append_assoc]

theorem Extends.flushText (buffer : List Char) : Extends (flushText buffer) [] := by
  intro top below
  by_cases h : buffer = []
  · simp only [HtmlParser.flushText, h, ne_eq, not_true_eq_false, if_false]
    exact ⟨top, rfl, rfl, rfl, by simp⟩
  · simp only [HtmlParser.flushText, h, ne_eq, not_false_eq_true, if_true]
    refine ⟨top.add_child ⟨buffer, [], true⟩, by simp [frameLoop, frameStep], rfl, rfl, ?_⟩
    simp [Node.add_child, elementsOnly_append, elementsOnly]

theorem Extends.element {inner : List Token} {g : List Node} (n : List Char)
    (h : Extends inner g) :
    Extends (⟨TokenType.StartTag, n⟩ :: (inner ++ [⟨TokenType.EndTag, n⟩]))
      [⟨n, g, false⟩] := by
  intro top below
  obtain ⟨c, h1, h2, h3, h4⟩ := h ⟨n, [], false⟩ (top :: below)
  obtain ⟨cn, cc, ct⟩ := c
  simp only at h2 h3 h4
  subst h2 h3
  refine ⟨top.add_child ⟨cn, cc, false⟩, ?_, rfl, rfl, ?_⟩
  · simp only [frameLoop, frameStep]
    rw [frameLoop_append, h1]
    simp [frameLoop, frameStep]
  · simp only [elementsOnly, List.nil_append] at h4
    simp [Node.add_child, elementsOnly_append, elementsOnly, h4]

theorem not_mem_indent (depth : Nat) : '<' ∉ indent depth := by
  induction depth with
  | zero => simp [indent]
  | succ d ih => simp [indent, ih]

theorem printChildren_cons_text (n : List Char) (rest : List Node) (d : Nat) :
    printChildren (⟨n, [], true⟩ :: rest) d
      = (indent d ++ ("Text: \"".toList ++ n ++ "\"\n".toList)) ++ printChildren rest d := by
  simp [printChildren, Node.print]

theorem printChildren_cons_elem (n : List Char) (cs rest : List Node) (d : Nat) (hd : 0 < d) :
    printChildren (⟨n, cs, false⟩ :: rest) d
      = indent d ++ ('<' :: (n ++ '>' :: '\n' :: (printChildren cs (d + 1) ++
          (indent d ++ '<' :: '/' :: (n ++ '>' :: '\n' :: printChildren rest d))))) := by
  simp [printChildren, Node.print, hd]

theorem print_tokens : ∀ (f : List Node), (∀ m ∈ allNodes f, m.printOk) →
    ∀ (d : Nat) (buffer : List Char), 0 < d →
      ∃ (toks : List Token) (buffer1 : List Char),
        (∀ s, tokensOf (printChildren f d ++ s) buffer = toks ++ tokensOf s buffer1) ∧
          Extends toks (elementsOnly f)
  | [], _, d, buffer, _ => ⟨[], buffer, by simp [printChildren], by
      simpa [elementsOnly] using Extends.nil⟩
  | ⟨n, cs, t⟩ :: rest, h, d, buffer, hd => by
    have hm : Node.printOk ⟨n, cs, t⟩ := h _ (by simp [allNodes])
    have hcs : ∀ m ∈ allNodes cs, m.printOk := fun m hm => h m (by simp [allNodes, hm])
    have hrest : ∀ m ∈ allNodes rest, m.printOk := fun m hm => h m (by simp [allNodes, hm])
    cases t with
    | true =>
      simp only [Node.printOk, if_true] at hm
      obtain ⟨hn, hc⟩ := hm
      subst hc
      have hline : '<' ∉ indent d ++ ("Text: \"".toList ++ n ++ "\"\n".toList) := by
        have := not_mem_indent d
        simp [this, hn]
      obtain ⟨toks, b1, h1, h2⟩ := print_tokens rest hrest d
        (buffer ++ (indent d ++ ("Text: \"".toList ++ n ++ "\"\n".toList))) hd
      refine ⟨toks, b1, ?_, by simpa [elementsOnly] using h2⟩
      intro s
      rw [printChildren_cons_text, List.append_assoc, tokensOf_text_run _ hline, h1]
    | false =>
      simp only [Node.printOk, Bool.false_eq_true, if_false] at hm
      obtain ⟨hn, hs⟩ := hm
      obtain ⟨tc, bc, hc1, hc2⟩ := print_tokens cs hcs (d + 1) ['\n'] (by omega)
      obtain ⟨tr, br, hr1, hr2⟩ := print_tokens rest hrest d ['\n'] hd
      refine ⟨flushText (buffer ++ indent d) ++
          (⟨TokenType.StartTag, n⟩ :: ((tc ++ flushText (bc ++ indent d)) ++
            [⟨TokenType.EndTag, n⟩])) ++ tr, br, ?_, ?_⟩
      · intro s
        rw [printChildren_cons_elem n cs rest d hd, List.append_assoc,
          tokensOf_text_run _ (not_mem_indent d)]
        simp only [List.cons_append, List.append_assoc]
        rw [tokensOf_startTag n _ _ hn hs, tokensOf_cons_ne _ _ _ (by decide), List.nil_append,
          hc1, tokensOf_text_run _ (not_mem_indent d), tokensOf_endTag n _ _ hn,
          tokensOf_cons_ne _ _ _ (by decide), List.nil_append, hr1]
        simp
      · have h1 := Extends.element n (Extends.append hc2 (Extends.flushText (bc ++ indent d)))
        have h2 := Extends.append (Extends.append (Extends.flushText (buffer ++ indent d)) h1)
          hr2
        simpa [elementsOnly] using h2

theorem print_root (name : List Char) (f : List Node) :
    Node.print ⟨name, f, false⟩ 0
      = '<' :: (name ++ '>' :: '\n' :: (printChildren f 1 ++ [])) := by
  simp [Node.print, indent]

theorem print_reparse_root (name : List Char) (f : List Node) (hn : '>' ∉ name)
    (hs : name.head? ≠ some '/') (hf : ∀ m ∈ allNodes f, m.printOk) :
    ∃ cs, build_dom (tokenize (Node.print ⟨name, f, false⟩ 0))
        = some ⟨"document".toList, [⟨name, cs, false⟩], false⟩ ∧
      elementsOnly cs = elementsOnly f := by
  obtain ⟨toks, b1, h1, h2⟩ := print_tokens f hf 1 ['\n'] (by omega)
  have h3 := Extends.append h2 (Extends.flushText b1)
  obtain ⟨top1, h4, h5, h6, h7⟩ := h3 ⟨name, [], false⟩ [⟨"document".toList, [], false⟩]
  obtain ⟨tn, tc, tt⟩ := top1
  simp only at h5 h6 h7
  subst h5 h6
  refine ⟨tc, ?_, by simpa [elementsOnly] using h7⟩
  rw [print_root, tokenize_eq_tokensOf, tokensOf_startTag tn _ _ hn hs,
    tokensOf_cons_ne _ _ _ (by decide), List.nil_append, h1, tokensOf_nil, flushText_nil,
    List.nil_append, build_dom_eq_frameLoop]
  simp only [frameLoop, frameStep]
  rw [h4]
  rfl

theorem shapeOk_printOk (ts : List Token) (r : Node) (h : build_dom ts = some r)
    (hts : ∀ tok ∈ ts, tok.shapeOk) : ∀ m ∈ allNodes r.children, m.printOk := by
  intro m hm
  have hpre := build_dom_preorder ts r h
  have hleaf := leavesOk_allNodes [r] (build_dom_leavesOk_aux ts r h) m (by
    obtain ⟨rn, rc, rt⟩ := r
    simp only [allNodes, List.append_nil, List.mem_cons]
    exact Or.inr hm)
  have hl : nodeLabel m ∈ ts.filterMap tokenLabel := by
    rw [← hpre]
    exact List.mem_map_of_mem nodeLabel hm
  obtain ⟨tok, htok, hlab⟩ := List.mem_filterMap.mp hl
  have hok := hts tok htok
  obtain ⟨ty, d⟩ := tok
  obtain ⟨mn, mc, mt⟩ := m
  cases ty with
  | StartTag =>
    simp only [tokenLabel, nodeLabel, Option.some.injEq, Prod.mk.injEq] at hlab
    obtain ⟨h1, h2⟩ := hlab
    subst h1 h2
    simpa [Node.printOk, Token.shapeOk] using hok
  | EndTag => simp [tokenLabel] at hlab
  | Text =>
    simp only [tokenLabel, nodeLabel, Option.some.injEq, Prod.mk.injEq] at hlab
    obtain ⟨h1, h2⟩ := hlab
    subst h1 h2
    simp only [Token.shapeOk] at hok
    simp only [Node.printOk, if_true]
    exact ⟨hok.2, hleaf rfl⟩

theorem tokenize_shapeOk (s : List Char) : ∀ tok ∈ tokenize s, tok.shapeOk := by
  rw [tokenize_eq_tokensOf]
  exact (tokensOf_shape s [] (by simp)).1

theorem print_reparse_aux (s : List Char) (t : Node) (h : build_dom (tokenize s) = some t) :
    ∃ cs, build_dom (tokenize (t.print 0))
        = some ⟨"document".toList, [⟨"document".toList, cs, false⟩], false⟩ ∧
      elementsOnly cs = elementsOnly t.children := by
  have hroot := build_dom_root _ t h
  have hok := shapeOk_printOk _ t h (tokenize_shapeOk s)
  obtain ⟨tn, tc, tt⟩ := t
  simp only at hroot hok
  obtain ⟨h1, h2⟩ := hroot
  subst h1 h2
  exact print_reparse_root _ tc (by decide) (by decide) hok

/-! ## The claims -/

/-- C1 (well-formed round trip): for every forest `f` whose element names contain
neither `<` nor `>` and do not start with `/`, whose text nodes are non-empty,
contain no `<` and have no children, and in which no two text nodes are adjacent
siblings, `build_dom (tokenize (render f))` succeeds and is exactly the non-text
node named "document" whose children are `f`. -/
theorem build_dom_tokenize_render (f : List Node) (h : wellFormed f = true) :
    build_dom (tokenize (render f)) = some ⟨"document".toList, f, false⟩ := by
  rw [tokenize_render f h]
  exact build_dom_toTokens f (wellFormed_leavesOk f h)

/-- Witness of C1 at the forest of `<div>Hello <b>world</b></div>`. -/
theorem build_dom_tokenize_render_witness :
    render [⟨"div".toList, [⟨"Hello ".toList, [], true⟩,
        ⟨"b".toList, [⟨"world".toList, [], true⟩], false⟩], false⟩]
      = "<div>Hello <b>world</b></div>".toList ∧
    build_dom (tokenize (render [⟨"div".toList, [⟨"Hello ".toList, [], true⟩,
        ⟨"b".toList, [⟨"world".toList, [], true⟩], false⟩], false⟩]))
      = some ⟨"document".toList, [⟨"div".toList, [⟨"Hello ".toList, [], true⟩,
        ⟨"b".toList, [⟨"world".toList, [], true⟩], false⟩], false⟩], false⟩ :=
  ⟨by simp [render],
    build_dom_tokenize_render _ (by simp [wellFormed, firstIsText])⟩

/-- C2 at the failing input `</a><b>`: the tokens are `EndTag a, StartTag b`; the
`EndTag` pops the root, and the `StartTag` then reads the top of the empty stack,
so `build_dom` returns no tree. -/
theorem build_dom_reads_empty_stack :
    tokenize "</a><b>".toList
      = [⟨TokenType.EndTag, "a".toList⟩, ⟨TokenType.StartTag, "b".toList⟩] ∧
    buildLoop [⟨TokenType.EndTag, "a".toList⟩] initialBuildState
      = some ⟨⟨"document".toList, [], false⟩, []⟩ ∧
    buildStep ⟨⟨"document".toList, [], false⟩, []⟩ ⟨TokenType.StartTag, "b".toList⟩ = none ∧
    build_dom (tokenize "</a><b>".toList) = none := by
  have ht : tokenize "</a><b>".toList
      = [⟨TokenType.EndTag, "a".toList⟩, ⟨TokenType.StartTag, "b".toList⟩] := by
    rw [tokenize_eq_tokensOf]
    simp [tokensOf_lt, tokensOf_nil, flushText, List.takeWhile_cons, List.dropWhile_cons]
  refine ⟨ht, rfl, rfl, ?_⟩
  rw [ht]
  rfl

/-- C3 at the failing input `[EndTag a]`: before the token the stack holds only the
pointer to the root; the `EndTag` pops it, so after this prefix the open-element
stack is empty. -/
theorem buildStep_end_tag_pops_root :
    initialBuildState.stack = [[]] ∧
    (buildStep initialBuildState ⟨TokenType.EndTag, "a".toList⟩).map (fun st => st.stack)
      = some [] := by
  exact ⟨rfl, rfl⟩

/-- C4 at the failing input `pre = []`, `e = EndTag a`, `post = [Text x]`: with the
stray end tag `build_dom` returns no tree, without it the tree `document -> "x"`. -/
theorem build_dom_stray_end_tag_not_noop :
    build_dom ([] ++ [⟨TokenType.EndTag, "a".toList⟩] ++ [⟨TokenType.Text, "x".toList⟩]) = none ∧
    build_dom ([] ++ [⟨TokenType.Text, "x".toList⟩])
      = some ⟨"document".toList, [⟨"x".toList, [], true⟩], false⟩ := by
  exact ⟨rfl, rfl⟩

/-- C5 (`tokenize` is total): every iteration of the outer loop advances the cursor
by at least one character; the inner tag-name loop never moves the cursor back and
stops at the end of the input at the latest; hence after at most `html.length`
iterations the loop condition `pos < html.length` is false, and `tokenize` returns
the tokens of that state followed by the flushed text buffer. -/
theorem tokenize_total (html : List Char) :
    (∀ (st : ScanState) (h : st.pos < html.length), st.pos < (tokenizeStep html st h).pos) ∧
    (∀ (pos : Nat) (tag_name : List Char),
      pos ≤ (scanTagName html pos tag_name).1 ∧
        (scanTagName html pos tag_name).1 ≤ max pos html.length) ∧
    ¬ (tokenizeIter html html.length ⟨[], 0, []⟩).pos < html.length ∧
    tokenize html = (tokenizeIter html html.length ⟨[], 0, []⟩).tokens
      ++ flushText (tokenizeIter html html.length ⟨[], 0, []⟩).buffer := by
  have hi : tokenizeIter html html.length ⟨[], 0, []⟩ = tokenizeLoop html ⟨[], 0, []⟩ :=
    tokenizeIter_eq_loop html html.length ⟨[], 0, []⟩ (by simp)
  refine ⟨tokenizeStep_pos_lt html, ?_, ?_, ?_⟩
  · intro pos tag_name
    exact ⟨scanTagName_fst_ge html pos tag_name, scanTagName_fst_le html pos tag_name⟩
  · rw [hi]
    exact tokenizeLoop_pos_ge html _
  · rw [hi]
    exact tokenize_eq_flush html

/-- C6 (leaf invariant): in every tree `build_dom` returns, every node with
`is_text = true` has an empty list of children. -/
theorem build_dom_text_nodes_are_leaves (ts : List Token) (r : Node)
    (h : build_dom ts = some r) :
    ∀ n ∈ allNodes [r], n.is_text = true → n.children = [] :=
  leavesOk_allNodes [r] (build_dom_leavesOk_aux ts r h)

/-- Witness of C6 at the tokens of `<a>x</a>y`. -/
theorem build_dom_text_nodes_are_leaves_witness :
    build_dom [⟨TokenType.StartTag, "a".toList⟩, ⟨TokenType.Text, "x".toList⟩,
        ⟨TokenType.EndTag, "a".toList⟩, ⟨TokenType.Text, "y".toList⟩]
      = some ⟨"document".toList, [⟨"a".toList, [⟨"x".toList, [], true⟩], false⟩,
          ⟨"y".toList, [], true⟩], false⟩ ∧
    ∀ n ∈ allNodes [⟨"document".toList, [⟨"a".toList, [⟨"x".toList, [], true⟩], false⟩,
          ⟨"y".toList, [], true⟩], false⟩],
      n.is_text = true → n.children = [] :=
  ⟨rfl, build_dom_text_nodes_are_leaves
    [⟨TokenType.StartTag, "a".toList⟩, ⟨TokenType.Text, "x".toList⟩,
      ⟨TokenType.EndTag, "a".toList⟩, ⟨TokenType.Text, "y".toList⟩] _ rfl⟩

/-- C7 (empty document): `tokenize ""` is the empty token sequence; `build_dom` of
the empty sequence is the node "document" with `is_text = false` and no children;
and the root of every tree `build_dom` returns is named "document" and has
`is_text = false`. -/
theorem build_dom_root_is_document :
    tokenize [] = [] ∧
    build_dom [] = some ⟨"document".toList, [], false⟩ ∧
    ∀ (ts : List Token) (r : Node), build_dom ts = some r →
      r.name = "document".toList ∧ r.is_text = false := by
  refine ⟨?_, rfl, build_dom_root⟩
  rw [tokenize_eq_tokensOf, tokensOf_nil, flushText_nil]

/-- Witness of C7 at the tokens `StartTag a, EndTag a, EndTag a`. -/
theorem build_dom_root_is_document_witness :
    build_dom [⟨TokenType.StartTag, "a".toList⟩, ⟨TokenType.EndTag, "a".toList⟩,
        ⟨TokenType.EndTag, "a".toList⟩]
      = some ⟨"document".toList, [⟨"a".toList, [], false⟩], false⟩ ∧
    (⟨"document".toList, [⟨"a".toList, [], false⟩], false⟩ : Node).name = "document".toList ∧
    (⟨"document".toList, [⟨"a".toList, [], false⟩], false⟩ : Node).is_text = false :=
  ⟨rfl, build_dom_root_is_document.2.2
    [⟨TokenType.StartTag, "a".toList⟩, ⟨TokenType.EndTag, "a".toList⟩,
      ⟨TokenType.EndTag, "a".toList⟩] _ rfl⟩

/-- C8 (end-tag names are ignored): two token sequences of equal length that agree
on the kind at every position and on the payload at every `StartTag` and `Text`
position give the same result of `build_dom` (the same tree, or no tree for
both). -/
theorem build_dom_ignores_end_tag_names (ts us : List Token) (hlen : ts.length = us.length)
    (h : ∀ (i : Nat) (h1 : i < ts.length) (h2 : i < us.length),
      ts[i].type = us[i].type ∧ (ts[i].type ≠ TokenType.EndTag → ts[i].data = us[i].data)) :
    build_dom ts = build_dom us := by
  have hf := forall₂_of_getElem (fun (a b : Token) => a.type = b.type ∧
    (a.type ≠ TokenType.EndTag → a.data = b.data)) ts us hlen h
  unfold build_dom
  rw [buildLoop_congr ts us initialBuildState hf]

/-- Witness of C8 at `<a><b></x>` against `<a><b></y>`. -/
theorem build_dom_ignores_end_tag_names_witness :
    build_dom [⟨TokenType.StartTag, "a".toList⟩, ⟨TokenType.StartTag, "b".toList⟩,
        ⟨TokenType.EndTag, "x".toList⟩]
      = build_dom [⟨TokenType.StartTag, "a".toList⟩, ⟨TokenType.StartTag, "b".toList⟩,
        ⟨TokenType.EndTag, "y".toList⟩] :=
  build_dom_ignores_end_tag_names _ _ rfl (by
    intro i h1 h2
    simp only [List.length_cons, List.length_nil] at h1
    match i, h1 with
    | 0, _ => exact ⟨rfl, fun _ => rfl⟩
    | 1, _ => exact ⟨rfl, fun _ => rfl⟩
    | 2, _ => exact ⟨rfl, fun h => absurd rfl h⟩)

/-- C9 (an unterminated tag is tokenized as if closed by the end of input): for
every `p` and every `n` without `>`, `tokenize (p ++ "<" ++ n)` equals
`tokenize (p ++ "<" ++ n ++ ">")`, and a tag token is emitted for the unterminated
tag: the last token is a tag token whose payload is everything after the `<` (or
`</`) of a tag up to the end of the input.  In particular `tokenize "<"` is the
single token `StartTag` with empty payload. -/
theorem tokenize_unterminated_tag :
    (∀ p n : List Char, '>' ∉ n →
      tokenize (p ++ ['<'] ++ n) = tokenize (p ++ ['<'] ++ n ++ ['>']) ∧
        endsWithOpenTag (p ++ ['<'] ++ n) (tokenize (p ++ ['<'] ++ n))) ∧
    tokenize ['<'] = [⟨TokenType.StartTag, []⟩] := by
  constructor
  · intro p n hn
    have := tokensOf_unterminated n hn p.length p [] (le_refl _)
    simp only [tokenize_eq_tokensOf, List.append_assoc, List.singleton_append]
    exact ⟨this.1.symm, this.2⟩
  · rw [tokenize_eq_tokensOf, tokensOf_openStart [] [] (by decide) (by decide), flushText_nil]
    rfl

/-- Witness of C9 at `p = "<a>x"`, `n = "/b"`: both inputs give the tokens
`StartTag a, Text x, EndTag b`. -/
theorem tokenize_unterminated_tag_witness :
    tokenize ("<a>x".toList ++ ['<'] ++ "/b".toList)
      = [⟨TokenType.StartTag, "a".toList⟩, ⟨TokenType.Text, "x".toList⟩,
          ⟨TokenType.EndTag, "b".toList⟩] ∧
    tokenize ("<a>x".toList ++ ['<'] ++ "/b".toList)
      = tokenize ("<a>x".toList ++ ['<'] ++ "/b".toList ++ ['>']) ∧
    endsWithOpenTag ("<a>x".toList ++ ['<'] ++ "/b".toList)
      (tokenize ("<a>x".toList ++ ['<'] ++ "/b".toList)) :=
  ⟨by rw [tokenize_eq_tokensOf]
      simp [tokensOf_lt, tokensOf_nil, tokensOf_cons_ne, flushText, List.takeWhile_cons,
        List.dropWhile_cons],
    tokenize_unterminated_tag.1 "<a>x".toList "/b".toList (by decide)⟩

/-- C10 (single-tag tokenization): for `n` without `>` that does not start with
`/`, `tokenize ("<" ++ n ++ ">") = [StartTag n]`; for `n` without `>`,
`tokenize ("</" ++ n ++ ">") = [EndTag n]`.  So `<>` gives `[StartTag ""]`, `</>`
gives `[EndTag ""]` and `<br/>` gives `[StartTag "br/"]`. -/
theorem tokenize_single_tag :
    (∀ n : List Char, '>' ∉ n → n.head? ≠ some '/' →
      tokenize (['<'] ++ n ++ ['>']) = [⟨TokenType.StartTag, n⟩]) ∧
    (∀ n : List Char, '>' ∉ n →
      tokenize (['<', '/'] ++ n ++ ['>']) = [⟨TokenType.EndTag, n⟩]) ∧
    tokenize "<>".toList = [⟨TokenType.StartTag, []⟩] ∧
    tokenize "</>".toList = [⟨TokenType.EndTag, []⟩] ∧
    tokenize "<br/>".toList = [⟨TokenType.StartTag, "br/".toList⟩] := by
  have h1 : ∀ n : List Char, '>' ∉ n → n.head? ≠ some '/' →
      tokenize (['<'] ++ n ++ ['>']) = [⟨TokenType.StartTag, n⟩] := by
    intro n hn hs
    have := tokensOf_startTag n [] [] hn hs
    simpa [tokenize_eq_tokensOf, tokensOf_nil, flushText_nil] using this
  have h2 : ∀ n : List Char, '>' ∉ n →
      tokenize (['<', '/'] ++ n ++ ['>']) = [⟨TokenType.EndTag, n⟩] := by
    intro n hn
    have := tokensOf_endTag n [] [] hn
    simpa [tokenize_eq_tokensOf, tokensOf_nil, flushText_nil] using this
  refine ⟨h1, h2, ?_, ?_, ?_⟩
  · exact h1 [] (by decide) (by decide)
  · exact h2 [] (by decide)
  · exact h1 "br/".toList (by decide) (by decide)

/-- Witness of C10 at the names `"br/"` and `"div"`. -/
theorem tokenize_single_tag_witness :
    tokenize (['<'] ++ "br/".toList ++ ['>']) = [⟨TokenType.StartTag, "br/".toList⟩] ∧
    tokenize (['<', '/'] ++ "div".toList ++ ['>']) = [⟨TokenType.EndTag, "div".toList⟩] :=
  ⟨tokenize_single_tag.1 _ (by decide) (by decide), tokenize_single_tag.2.1 _ (by decide)⟩

/-- C11 (reference example): the input of `main` tokenizes to exactly the ten
tokens `StartTag html, StartTag body, StartTag div, Text "Hello ", StartTag b,
Text "world", EndTag b, EndTag div, EndTag body, EndTag html`, and `build_dom` of
them is `document -> html -> body -> div`, where `div` has exactly the two children
`Text "Hello "` and the element `b` whose only child is `Text "world"`. -/
theorem reference_example :
    tokenize "<html><body><div>Hello <b>world</b></div></body></html>".toList
      = [⟨TokenType.StartTag, "html".toList⟩, ⟨TokenType.StartTag, "body".toList⟩,
          ⟨TokenType.StartTag, "div".toList⟩, ⟨TokenType.Text, "Hello ".toList⟩,
          ⟨TokenType.StartTag, "b".toList⟩, ⟨TokenType.Text, "world".toList⟩,
          ⟨TokenType.EndTag, "b".toList⟩, ⟨TokenType.EndTag, "div".toList⟩,
          ⟨TokenType.EndTag, "body".toList⟩, ⟨TokenType.EndTag, "html".toList⟩] ∧
    build_dom [⟨TokenType.StartTag, "html".toList⟩, ⟨TokenType.StartTag, "body".toList⟩,
          ⟨TokenType.StartTag, "div".toList⟩, ⟨TokenType.Text, "Hello ".toList⟩,
          ⟨TokenType.StartTag, "b".toList⟩, ⟨TokenType.Text, "world".toList⟩,
          ⟨TokenType.EndTag, "b".toList⟩, ⟨TokenType.EndTag, "div".toList⟩,
          ⟨TokenType.EndTag, "body".toList⟩, ⟨TokenType.EndTag, "html".toList⟩]
      = some ⟨"document".toList,
          [⟨"html".toList,
            [⟨"body".toList,
              [⟨"div".toList,
                [⟨"Hello ".toList, [], true⟩,
                 ⟨"b".toList, [⟨"world".toList, [], true⟩], false⟩],
                false⟩],
              false⟩],
            false⟩],
          false⟩ := by
  constructor
  · rw [tokenize_eq_tokensOf]
    simp [tokensOf_lt, tokensOf_nil, tokensOf_cons_ne, flushText, List.takeWhile_cons,
      List.dropWhile_cons]
  · rfl

/-- C12 (mismatched close): `<a><b></a>` tokenizes to `StartTag a, StartTag b,
EndTag a`; `build_dom` of it is `document` with the single child `a`, whose single
child is `b`, which has no children.  Before the `EndTag` the open-element stack
holds the root, `a` and `b`; the `EndTag` pops `b` and leaves the root and `a`. -/
theorem mismatched_close_example :
    tokenize "<a><b></a>".toList
      = [⟨TokenType.StartTag, "a".toList⟩, ⟨TokenType.StartTag, "b".toList⟩,
          ⟨TokenType.EndTag, "a".toList⟩] ∧
    build_dom (tokenize "<a><b></a>".toList)
      = some ⟨"document".toList, [⟨"a".toList, [⟨"b".toList, [], false⟩], false⟩], false⟩ ∧
    (buildLoop [⟨TokenType.StartTag, "a".toList⟩, ⟨TokenType.StartTag, "b".toList⟩]
        initialBuildState).map (fun st => st.stack) = some [[], [0], [0, 0]] ∧
    (buildLoop [⟨TokenType.StartTag, "a".toList⟩, ⟨TokenType.StartTag, "b".toList⟩,
        ⟨TokenType.EndTag, "a".toList⟩] initialBuildState).map (fun st => st.stack)
      = some [[], [0]] := by
  have ht : tokenize "<a><b></a>".toList
      = [⟨TokenType.StartTag, "a".toList⟩, ⟨TokenType.StartTag, "b".toList⟩,
          ⟨TokenType.EndTag, "a".toList⟩] := by
    rw [tokenize_eq_tokensOf]
    simp [tokensOf_lt, tokensOf_nil, tokensOf_cons_ne, flushText, List.takeWhile_cons,
      List.dropWhile_cons]
  refine ⟨ht, ?_, rfl, rfl⟩
  rw [ht]
  rfl

/-- C13, counterexample: for the well-formed input `<a>x</a>` the tree is
`document -> a -> "x"`; `Node::print` writes the four lines below; reading them back
gives a tree with an extra element `document` and three text nodes made of line
breaks, indentation and the `Text: "x"` decoration, so neither the shape nor the
text contents are those of the first tree. -/
theorem print_reparse_differs :
    build_dom (tokenize "<a>x</a>".toList)
      = some ⟨"document".toList, [⟨"a".toList, [⟨"x".toList, [], true⟩], false⟩], false⟩ ∧
    Node.print ⟨"document".toList, [⟨"a".toList, [⟨"x".toList, [], true⟩], false⟩], false⟩ 0
      = "<document>\n  <a>\n    Text: \"x\"\n  </a>\n".toList ∧
    build_dom (tokenize "<document>\n  <a>\n    Text: \"x\"\n  </a>\n".toList)
      = some ⟨"document".toList,
          [⟨"document".toList,
            [⟨"\n  ".toList, [], true⟩,
             ⟨"a".toList, [⟨"\n    Text: \"x\"\n  ".toList, [], true⟩], false⟩,
             ⟨"\n".toList, [], true⟩],
            false⟩],
          false⟩ ∧
    (⟨"document".toList,
          [⟨"document".toList,
            [⟨"\n  ".toList, [], true⟩,
             ⟨"a".toList, [⟨"\n    Text: \"x\"\n  ".toList, [], true⟩], false⟩,
             ⟨"\n".toList, [], true⟩],
            false⟩],
          false⟩ : Node)
      ≠ ⟨"document".toList, [⟨"a".toList, [⟨"x".toList, [], true⟩], false⟩], false⟩ := by
  have h1 : tokenize "<a>x</a>".toList
      = [⟨TokenType.StartTag, "a".toList⟩, ⟨TokenType.Text, "x".toList⟩,
          ⟨TokenType.EndTag, "a".toList⟩] := by
    rw [tokenize_eq_tokensOf]
    simp [tokensOf_lt, tokensOf_nil, tokensOf_cons_ne, flushText, List.takeWhile_cons,
      List.dropWhile_cons]
  have h2 : tokenize "<document>\n  <a>\n    Text: \"x\"\n  </a>\n".toList
      = [⟨TokenType.StartTag, "document".toList⟩, ⟨TokenType.Text, "\n  ".toList⟩,
          ⟨TokenType.StartTag, "a".toList⟩,
          ⟨TokenType.Text, "\n    Text: \"x\"\n  ".toList⟩,
          ⟨TokenType.EndTag, "a".toList⟩, ⟨TokenType.Text, "\n".toList⟩] := by
    rw [tokenize_eq_tokensOf]
    simp [tokensOf_lt, tokensOf_nil, tokensOf_cons_ne, flushText, List.takeWhile_cons,
      List.dropWhile_cons]
  refine ⟨?_, ?_, ?_, ?_⟩
  · rw [h1]; rfl
  · simp [Node.print, printChildren, indent]
  · rw [h2]; rfl
  · simp

/-- C13 as amended: for every input `s` on which `build_dom (tokenize s)` returns a
tree `t` (so for every well-formed input), reading back the text that
`Node::print` writes for `t` succeeds and gives the root `document` with a single
child, an element `document` (the printed root line, which is never closed), and
the element nodes below that child are exactly the element nodes of `t`, with the
same names, nesting and order.  Text nodes are not preserved. -/
theorem print_reparse_elements (s : List Char) (t : Node)
    (h : build_dom (tokenize s) = some t) :
    ∃ cs, build_dom (tokenize (t.print 0))
        = some ⟨"document".toList, [⟨"document".toList, cs, false⟩], false⟩ ∧
      elementsOnly cs = elementsOnly t.children :=
  print_reparse_aux s t h

/-- Witness of the amended C13 at the input `<a>x</a>`. -/
theorem print_reparse_elements_witness :
    ∃ cs, build_dom (tokenize (Node.print
          ⟨"document".toList, [⟨"a".toList, [⟨"x".toList, [], true⟩], false⟩], false⟩ 0))
        = some ⟨"document".toList, [⟨"document".toList, cs, false⟩], false⟩ ∧
      elementsOnly cs = elementsOnly [⟨"a".toList, [⟨"x".toList, [], true⟩], false⟩] :=
  print_reparse_elements "<a>x</a>".toList
    ⟨"document".toList, [⟨"a".toList, [⟨"x".toList, [], true⟩], false⟩], false⟩
    (by
      have h1 : tokenize "<a>x</a>".toList
          = [⟨TokenType.StartTag, "a".toList⟩, ⟨TokenType.Text, "x".toList⟩,
              ⟨TokenType.EndTag, "a".toList⟩] := by
        rw [tokenize_eq_tokensOf]
        simp [tokensOf_lt, tokensOf_nil, tokensOf_cons_ne, flushText, List.takeWhile_cons,
          List.dropWhile_cons]
      rw [h1]
      rfl)

/-- C14 (document order is token order): for every token sequence on which
`build_dom` returns a tree, the pre-order traversal of the tree without the root,
as (label, is_text) pairs, is the token sequence with the `EndTag` tokens deleted,
`StartTag n` read as `(n, false)` and `Text t` as `(t, true)`; so the tree has
exactly one non-root node per `StartTag` or `Text` token. -/
theorem build_dom_preorder_eq_tokens (ts : List Token) (r : Node)
    (h : build_dom ts = some r) :
    preorder r.children = ts.filterMap tokenLabel ∧
      (allNodes r.children).length
        = countType TokenType.StartTag ts + countType TokenType.Text ts := by
  have h1 := build_dom_preorder ts r h
  refine ⟨h1, ?_⟩
  rw [← length_filterMap_tokenLabel, ← h1]
  simp [preorder]

/-- Witness of C14 at the tokens of `<a>x<b></b></a>y`. -/
theorem build_dom_preorder_eq_tokens_witness :
    preorder [⟨"a".toList, [⟨"x".toList, [], true⟩, ⟨"b".toList, [], false⟩], false⟩,
        ⟨"y".toList, [], true⟩]
      = [⟨TokenType.StartTag, "a".toList⟩, ⟨TokenType.Text, "x".toList⟩,
          ⟨TokenType.StartTag, "b".toList⟩, ⟨TokenType.EndTag, "b".toList⟩,
          ⟨TokenType.EndTag, "a".toList⟩, ⟨TokenType.Text, "y".toList⟩].filterMap tokenLabel ∧
    (allNodes [⟨"a".toList, [⟨"x".toList, [], true⟩, ⟨"b".toList, [], false⟩], false⟩,
        ⟨"y".toList, [], true⟩]).length
      = countType TokenType.StartTag [⟨TokenType.StartTag, "a".toList⟩,
          ⟨TokenType.Text, "x".toList⟩, ⟨TokenType.StartTag, "b".toList⟩,
          ⟨TokenType.EndTag, "b".toList⟩, ⟨TokenType.EndTag, "a".toList⟩,
          ⟨TokenType.Text, "y".toList⟩]
        + countType TokenType.Text [⟨TokenType.StartTag, "a".toList⟩,
          ⟨TokenType.Text, "x".toList⟩, ⟨TokenType.StartTag, "b".toList⟩,
          ⟨TokenType.EndTag, "b".toList⟩, ⟨TokenType.EndTag, "a".toList⟩,
          ⟨TokenType.Text, "y".toList⟩] :=
  build_dom_preorder_eq_tokens
    [⟨TokenType.StartTag, "a".toList⟩, ⟨TokenType.Text, "x".toList⟩,
      ⟨TokenType.StartTag, "b".toList⟩, ⟨TokenType.EndTag, "b".toList⟩,
      ⟨TokenType.EndTag, "a".toList⟩, ⟨TokenType.Text, "y".toList⟩]
    ⟨"document".toList,
      [⟨"a".toList, [⟨"x".toList, [], true⟩, ⟨"b".toList, [], false⟩], false⟩,
        ⟨"y".toList, [], true⟩], false⟩ rfl

/-- C15 (closing tags at the end never change the tree): if `build_dom ts` returns
a tree, then for every sequence `es` of `EndTag` tokens, of any length,
`build_dom (ts ++ es)` returns the same tree. -/
theorem build_dom_trailing_end_tags (ts es : List Token) (r : Node)
    (h : build_dom ts = some r) (hes : ∀ e ∈ es, e.type = TokenType.EndTag) :
    build_dom (ts ++ es) = some r :=
  build_dom_append_end_tags ts es r h hes

/-- Witness of C15: two open elements followed by four end tags. -/
theorem build_dom_trailing_end_tags_witness :
    build_dom [⟨TokenType.StartTag, "a".toList⟩, ⟨TokenType.StartTag, "b".toList⟩]
      = some ⟨"document".toList, [⟨"a".toList, [⟨"b".toList, [], false⟩], false⟩], false⟩ ∧
    build_dom ([⟨TokenType.StartTag, "a".toList⟩, ⟨TokenType.StartTag, "b".toList⟩] ++
        [⟨TokenType.EndTag, "b".toList⟩, ⟨TokenType.EndTag, "a".toList⟩,
          ⟨TokenType.EndTag, "x".toList⟩, ⟨TokenType.EndTag, "y".toList⟩])
      = some ⟨"document".toList, [⟨"a".toList, [⟨"b".toList, [], false⟩], false⟩], false⟩ :=
  ⟨rfl, build_dom_trailing_end_tags _ _ _ rfl (by
    intro e he
    simp only [List.mem_cons, List.mem_singleton, List.mem_nil_iff, or_false] at he
    rcases he with h | h | h | h <;> rw [h])⟩

/-- C16 (the token sequence reproduces the input): the concatenation of `src`
over `tokenize s` is `s` when `s` does not end inside a tag, and `s ++ ">"` when it
does. -/
theorem srcAll_tokenize (s : List Char) :
    srcAll (tokenize s) = if endsInsideTag s = true then s ++ ['>'] else s := by
  rw [tokenize_eq_tokensOf, srcAll_tokensOf]
  rfl

/-- C17 (shape of the scanner's output): every `Text` token of `tokenize input`
has a non-empty payload without `<`; no two consecutive tokens are both `Text`; no
`StartTag` or `EndTag` payload contains `>`; no `StartTag` payload starts with
`/`. -/
theorem tokenize_shape (input : List Char) :
    (∀ t ∈ tokenize input, t.type = TokenType.Text → t.data ≠ [] ∧ '<' ∉ t.data) ∧
    (∀ (i : Nat) (h : i + 1 < (tokenize input).length),
      ¬ ((tokenize input)[i].type = TokenType.Text ∧
          (tokenize input)[i + 1].type = TokenType.Text)) ∧
    (∀ t ∈ tokenize input, t.type ≠ TokenType.Text → '>' ∉ t.data) ∧
    (∀ t ∈ tokenize input, t.type = TokenType.StartTag → t.data.head? ≠ some '/') := by
  have hs := tokenize_shapeOk input
  have hc : List.Chain' notBothText (tokenize input) := by
    rw [tokenize_eq_tokensOf]
    exact (tokensOf_shape input [] (by simp)).2
  refine ⟨?_, ?_, ?_, ?_⟩
  · intro t ht hty
    have := hs t ht
    obtain ⟨ty, d⟩ := t
    simp only at hty
    subst hty
    exact this
  · intro i h
    have := (List.chain'_iff_get.mp hc) i (by omega)
    simpa [notBothText] using this
  · intro t ht hty
    have := hs t ht
    obtain ⟨ty, d⟩ := t
    cases ty with
    | StartTag => exact this.1
    | EndTag => exact this
    | Text => exact absurd rfl hty
  · intro t ht hty
    have := hs t ht
    obtain ⟨ty, d⟩ := t
    simp only at hty
    subst hty
    exact this.2

/-- C18 (exact failure condition of `build_dom`): `build_dom ts` reads the top of
an empty open-element stack, and so returns no tree, if and only if some `StartTag`
or `Text` token `ts[i]` comes after a prefix `ts[0..i)` holding strictly more
`EndTag` than `StartTag` tokens; for every other token sequence it returns a
tree. -/
theorem build_dom_fails_iff (ts : List Token) :
    (build_dom ts = none ↔
      ∃ (i : Nat) (h : i < ts.length),
        (ts[i].type = TokenType.StartTag ∨ ts[i].type = TokenType.Text) ∧
          countType TokenType.StartTag (ts.take i) < countType TokenType.EndTag (ts.take i)) ∧
    ((∃ r, build_dom ts = some r) ↔
      ¬ ∃ (i : Nat) (h : i < ts.length),
        (ts[i].type = TokenType.StartTag ∨ ts[i].type = TokenType.Text) ∧
          countType TokenType.StartTag (ts.take i) < countType TokenType.EndTag (ts.take i)) := by
  have key : build_dom ts = none ↔
      ∃ (i : Nat) (h : i < ts.length),
        (ts[i].type = TokenType.StartTag ∨ ts[i].type = TokenType.Text) ∧
          countType TokenType.StartTag (ts.take i) < countType TokenType.EndTag (ts.take i) := by
    rw [build_dom_eq_none_iff]
    simp [underflowAt, needsOpen]
  refine ⟨key, ?_⟩
  rw [← key]
  cases build_dom ts <;> simp

end HtmlParser
